import Mathlib

/-!
# Verification of the tinydi dependency-resolution core

Shallow embedding of the repository's dependency-injection core:

* `src/dimi/_storage.py` — `DepChainMap` (layered lookup), `DepStorage`
  (`__setitem__` with cycle check, `_has_cycle` three-color DFS,
  `_resolve_sync` phase-1 walk, `_resolve_async` phase-2 walk,
  `resolve` / `aresolve`);
* `src/tinydi/di.py` — the container API (`__getitem__` / `aget` with the
  async-access guard, `override` scope bracket, registration).

Dependency keys are callables in Python; here they are `Nat` identifiers.
Factories are treated symbolically: invoking the factory of key `k` with
resolved kwargs `kws` yields the symbolic value `Value.res k kws`, and an
invocation trace (the list of invoked keys, in order) is threaded through the
resolution functions so that ordering and "was the factory invoked" facts are
observable.  Python exceptions become an `Err` sum returned through `Except`.
-/

namespace TinyDi

/-- Identity of a factory callable (a dependency key). -/
abbrev Key := Nat

/-- Symbolic runtime values.
`res k kws` is the result of invoking the factory of key `k` with the named,
already-resolved kwargs `kws` (in the order they were filled in);
`attr a v` is the projection of attribute `a` off `v` (`Kwarg.getattrs`);
`inst k n` is an identity-tagged object (`n` is a fresh allocation id), used
by the scope-policy model where object identity matters. -/
inductive Value where
  | res : Key → List (String × Value) → Value
  | attr : String → Value → Value
  | inst : Key → Nat → Value

/-- A kwarg descriptor of `dimi`: parameter `name` is satisfied by resolving
key `func`, then projecting the attribute path `path` off the result. -/
structure Kwarg where
  name : String
  func : Key
  path : List String

/-- Source `kwarg.getattrs(value)`: apply the attribute path to a resolved value.
Modelled from the spec: `dimi/dependency.py` is not in src; the spec says a
Kwarg optionally projects "an attribute/sub-attribute off the result". -/
def Kwarg.getattrs (kw : Kwarg) (v : Value) : Value :=
  kw.path.foldl (fun acc a => Value.attr a acc) v

/-- A stored dependency node (`dimi`'s `Dependency`): its own factory's
async flag and the ordered kwarg descriptors (`subdeps` / `unresolved`).
Modelled from the spec where `dimi/dependency.py` is missing: the spec's
Dependency Node is `{scope: Scope Policy, unresolved: ordered sequence of
Kwarg Descriptor}` with `is_async` derived once from the factory. -/
structure Dep where
  isAsync : Bool
  kwargs : List Kwarg

/-- The error taxonomy of the spec (§7).  In `dimi`, `CycleError` and
`InvalidAsyncAccessError` are both raised as `InvalidOperation` with
different messages; the spec's taxonomy distinguishes them, and
`dimi/exceptions.py` is not in src, so the distinct constructors follow the
spec's names. -/
inductive Err where
  | unknownDependency : Key → Err
  | cycleError : Err
  | invalidAsyncAccess : Err
deriving DecidableEq

/-- One layer of a chain map: an association list from keys to nodes. -/
abbrev Layer := List (Key × Dep)

/-- A `ChainMap`: list of layers, innermost (most recently pushed) first. -/
abbrev Storage := List Layer

/-- First-match association-list lookup (Python dict lookup; assignment is
modelled by prepending, so the earliest entry is the live one). -/
def alookup : Layer → Key → Option Dep
  | [], _ => none
  | (k', v) :: rest, k => if k = k' then some v else alookup rest k

/-- Layered `ChainMap` lookup: searches layers innermost to outermost
(`ChainMap.__getitem__` iterates `self.maps` in order). -/
def find? : Storage → Key → Option Dep
  | [], _ => none
  | l :: rest, k =>
    match alookup l k with
    | some d => some d
    | none => find? rest k

/-- Source `DepChainMap.__getitem__`: successful lookup, or `UnknownDependency(key)`
carrying the key that was absent from all layers. -/
def lookup (s : Storage) (k : Key) : Except Err Dep :=
  match find? s k with
  | some d => .ok d
  | none => .error (.unknownDependency k)

/-- Source `ChainMap.new_child(m)`: prepend a new innermost layer. -/
def newChild (s : Storage) (l : Layer) : Storage := l :: s

/-- Source `ChainMap.parents`: drop the innermost layer. -/
def parents (s : Storage) : Storage := s.tail

/-- Source `ChainMap.__setitem__`: write into the innermost layer
(`self.maps[0][key] = value`). -/
def insertInnermost : Storage → Key → Dep → Storage
  | [], k, v => [[(k, v)]]
  | l :: rest, k, v => ((k, v) :: l) :: rest

/-! ## The dependency graph induced by a storage state -/

/-- Successor keys of `k`: the target key of each kwarg of `k`'s node
(`self[key].subdeps`); no successors if `k` is unregistered. -/
def succs (s : Storage) (k : Key) : List Key :=
  match find? s k with
  | some d => d.kwargs.map (fun kw => kw.func)
  | none => []

/-- Edge relation of the dependency graph: node → each kwarg's target key. -/
def EdgeP (s : Storage) (a b : Key) : Prop := b ∈ succs s a

/-- Reachability in the dependency graph (zero or more edges). -/
def Reach (s : Storage) : Key → Key → Prop := Relation.ReflTransGen (EdgeP s)

/-- The dependency graph reachable from `k` contains a cycle. -/
def HasCycleFrom (s : Storage) (k : Key) : Prop :=
  ∃ c, Reach s k c ∧ Relation.TransGen (EdgeP s) c c

/-- No cycle is reachable from `k`. -/
def AcyclicFrom (s : Storage) (k : Key) : Prop :=
  ∀ c, Reach s k c → ¬ Relation.TransGen (EdgeP s) c c

/-- Every key reachable from `k` is registered in some layer. -/
def ClosurePresent (s : Storage) (k : Key) : Prop :=
  ∀ m, Reach s k m → (find? s m).isSome

/-- All keys that occur on the left of a mapping, in any layer. -/
def domKeys (s : Storage) : List Key := s.flatMap (fun l => l.map (fun p => p.1))

/-- The domain of the storage, as a finite set. -/
def domFinset (s : Storage) : Finset Key := (domKeys s).toFinset

/-- All keys that occur as some kwarg's target, in any stored node. -/
def targetKeys (s : Storage) : List Key :=
  s.flatMap (fun l => l.flatMap (fun p => p.2.kwargs.map (fun kw => kw.func)))

/-- Finite universe containing every key reachable from `k`. -/
def keyUniv (s : Storage) (k : Key) : Finset Key :=
  insert k (domFinset s ∪ (targetKeys s).toFinset)

/-! ## Cycle detector (`DepStorage._has_cycle`) -/

/-- Result of the coloring walk: a final coloring, a detected cycle (the
Python `ValueError`), a missing key (the Python `UnknownDependency`
propagating out of `self[key]`), or exhausted fuel (never happens for the
fuel `_has_cycle` supplies — Python's recursion needs no fuel). -/
inductive CycRes where
  | ok : (Key → Nat) → CycRes
  | cyc : CycRes
  | missing : Key → CycRes
  | out : CycRes

/-- The recursive `dfs` of `_has_cycle`: colors are 0 = white (the
`defaultdict(int)` default), 1 = gray (on the walk stack), 2 = black (fully
explored).  A gray node raises (cycle); a black node short-circuits; a white
node is grayed, its node looked up (`self[key].subdeps`, which can raise
`UnknownDependency`), its successors walked in order, and then it is
blackened.  Fuel decreases once per nesting level only; the successor loop
is the inner fold. -/
def dfsC (s : Storage) : Nat → (Key → Nat) → Key → CycRes
  | 0, _, _ => .out
  | fuel + 1, colors, k =>
    if colors k = 1 then .cyc
    else if colors k = 2 then .ok colors
    else
      let colors1 := fun x => if x = k then 1 else colors x
      match find? s k with
      | none => .missing k
      | some d =>
        match (d.kwargs.map (fun kw => kw.func)).foldl
            (fun (acc : CycRes) (x : Key) =>
              match acc with
              | .ok c => dfsC s fuel c x
              | r => r)
            (.ok colors1) with
        | .ok colors2 => .ok (fun x => if x = k then 2 else colors2 x)
        | r => r

/-- The `for kwarg in self[key].subdeps: dfs(kwarg.func)` loop of
`_has_cycle`, as a standalone recursion (equal to the fold inside
`dfsC`). -/
def dfsL (s : Storage) (fuel : Nat) : (Key → Nat) → List Key → CycRes
  | colors, [] => .ok colors
  | colors, x :: xs =>
    match dfsC s fuel colors x with
    | .ok colors' => dfsL s fuel colors' xs
    | r => r

/-- Fuel sufficient for the coloring walk (its recursion depth is bounded by
the number of distinct registered keys). -/
def cbound (s : Storage) : Nat := (domFinset s).card + 1

/-- Source `DepStorage._has_cycle(key)`: runs the coloring walk from `key`;
`ValueError` (a gray hit) is suppressed into `True`, normal completion gives
`False`, and `UnknownDependency` from a lookup propagates.  The `.out` arm is
unreachable because `cbound` bounds the walk's depth. -/
def hasCycle (s : Storage) (k : Key) : Except Err Bool :=
  match dfsC s (cbound s) (fun _ => 0) k with
  | .cyc => .ok true
  | .ok _ => .ok false
  | .missing m => .error (.unknownDependency m)
  | .out => .ok false

/-! ## Registration (`DepStorage.__setitem__`) -/

/-- Source `DepStorage.__setitem__`: run the cycle check against the hypothetical
storage `self.new_child({key: value})` that already contains the candidate
mapping; reject with the cycle error if it reports a cycle (and let
`UnknownDependency` from its lookups propagate); otherwise insert into the
real storage's innermost layer. -/
def setItem (s : Storage) (k : Key) (v : Dep) : Except Err Storage :=
  match hasCycle (newChild s [(k, v)]) k with
  | .error e => .error e
  | .ok true => .error .cycleError
  | .ok false => .ok (insertInnermost s k v)

/-- The storage state observable after a `register` attempt: the new state on
success, the untouched prior state when the registration raised. -/
def setItemState (s : Storage) (k : Key) (v : Dep) : Storage :=
  match setItem s k v with
  | .ok s' => s'
  | .error _ => s

/-! ## Phase 1: synchronous descent (`DepStorage._resolve_sync`) -/

/-- The `PartResolvedDependency` mid-walk: the node's key, its own factory's
async flag, the kwargs already resolved to values (`resolved`, in the order
they were filled), and the kwargs still pending because their subtree hit an
asynchronous factory (`under_resolving`: the descriptor rebound to carry the
partial node).  Modelled from the spec where `dimi/dependency.py` is
missing. -/
inductive Part where
  | mk : Key → Bool → List (String × Value) → List (Kwarg × Part) → Part

def Part.key : Part → Key
  | .mk k _ _ _ => k

def Part.isAsync : Part → Bool
  | .mk _ a _ _ => a

def Part.resolved : Part → List (String × Value)
  | .mk _ _ r _ => r

def Part.pending : Part → List (Kwarg × Part)
  | .mk _ _ _ p => p

/-- Partial results of the `for kwarg in dependency.unresolved` loop of
`_resolve_sync`: the `resolved` values, the `under_resolving` entries and the
invocation trace accumulated so far. -/
abbrev KwargsOut := List (String × Value) × List (Kwarg × Part) × List Key

/-- One iteration of the `for kwarg in dependency.unresolved` loop of
`_resolve_sync` (`sub` is the result of resolving this kwarg's target,
`acc` that of the remaining kwargs): a collapsed value goes into `resolved`
(after `kwarg.getattrs`), a partial node is appended to `under_resolving` as
`kwarg.copy(func=subdep)`; errors abort the walk. -/
def stepKwarg (kw : Kwarg) (sub : Option (Except Err ((Value ⊕ Part) × List Key)))
    (acc : Option (Except Err KwargsOut)) : Option (Except Err KwargsOut) :=
  match sub with
  | none => none
  | some (.error e) => some (.error e)
  | some (.ok (.inl v, tr)) =>
    match acc with
    | none => none
    | some (.error e) => some (.error e)
    | some (.ok (res, pend, tr2)) =>
      some (.ok ((kw.name, kw.getattrs v) :: res, pend, tr ++ tr2))
  | some (.ok (.inr p, tr)) =>
    match acc with
    | none => none
    | some (.error e) => some (.error e)
    | some (.ok (res, pend, tr2)) =>
      some (.ok (res, (kw, p) :: pend, tr ++ tr2))

/-- The recursive `dfs` of `_resolve_sync`, processing the node of key `k`
(`self[kwarg.func].partially_resolved()` plus the loop body and the final
return).  Returns `Sum.inl value` when the subtree collapsed to a value, or
`Sum.inr part` when a partially-resolved node is handed up, together with the
trace of factory invocations performed.  `none` means fuel ran out (the
Python recursion diverges only on cyclic storage, which registration
forbids). -/
def dfsSync (s : Storage) : Nat → Bool → Key → Option (Except Err ((Value ⊕ Part) × List Key))
  | 0, _, _ => none
  | fuel + 1, top, k =>
    match lookup s k with
    | .error e => some (.error e)
    | .ok d =>
      match d.kwargs.foldr
          (fun kw acc => stepKwarg kw (dfsSync s fuel false kw.func) acc)
          (some (.ok ([], [], []))) with
      | none => none
      | some (.error e) => some (.error e)
      | some (.ok (res, pend, tr)) =>
        if top || d.isAsync || !pend.isEmpty then
          some (.ok (.inr (.mk k d.isAsync res pend), tr))
        else
          some (.ok (.inl (.res k res), tr ++ [k]))

/-- The `for kwarg in dependency.unresolved` loop of `_resolve_sync`, as a
standalone recursion (equal to the fold inside `dfsSync`). -/
def processKwargs (s : Storage) (fuel : Nat) : List Kwarg → Option (Except Err KwargsOut)
  | [] => some (.ok ([], [], []))
  | kw :: rest =>
    stepKwarg kw (dfsSync s fuel false kw.func) (processKwargs s fuel rest)

/-- Fuel sufficient for the phase-1 walk from `k` over an acyclic graph (its
depth is bounded by the number of keys reachable from `k`). -/
def rbound (s : Storage) (k : Key) : Nat := (keyUniv s k).card + 1

/-! ## Phase 2: asynchronous completion (`DepStorage._resolve_async`) -/

mutual
/-- The non-top case of `_resolve_async`'s `dfs`: complete every pending
kwarg of the partial node, then invoke (awaiting as needed) its factory with
the resolved kwargs, yielding a value and the invocation trace. -/
def awaitPart : Part → Value × List Key
  | .mk k _ res pend =>
    let (res2, tr) := completePend pend
    (.res k (res ++ res2), tr ++ [k])

/-- The `for kwarg in dependency.under_resolving` loop of phase 2: await
each carried partial node in order and place `kwarg.getattrs` of its value
into `resolved`. -/
def completePend : List (Kwarg × Part) → List (String × Value) × List Key
  | [] => ([], [])
  | (kw, p) :: rest =>
    let (v, tr) := awaitPart p
    let (res, tr2) := completePend rest
    ((kw.name, kw.getattrs v) :: res, tr ++ tr2)
end

/-! ## Public resolution operations (`DepStorage.resolve` / `aresolve`) -/

/-- Source `DepStorage.resolve(key)`: run phase 1 at top level, then invoke the top
node's factory with its resolved kwargs (`self._resolve_sync(key)()`).  The
`Sum.inl` arm is unreachable: the top-level phase-1 call always returns a
partially-resolved node. -/
def resolve (s : Storage) (k : Key) : Option (Except Err (Value × List Key)) :=
  match dfsSync s (rbound s k) true k with
  | none => none
  | some (.error e) => some (.error e)
  | some (.ok (.inr p, tr)) => some (.ok (.res p.key p.resolved, tr ++ [p.key]))
  | some (.ok (.inl v, tr)) => some (.ok (v, tr))

/-- Source `DepStorage.aresolve(key)`: phase 1, then phase 2 on the resulting
partial node, then invoke (awaiting if asynchronous) the top node's factory.
The `Sum.inl` arm is unreachable as in `resolve`. -/
def aresolve (s : Storage) (k : Key) : Option (Except Err (Value × List Key)) :=
  match dfsSync s (rbound s k) true k with
  | none => none
  | some (.error e) => some (.error e)
  | some (.ok (.inr p, tr)) =>
    let (res2, tr2) := completePend p.pending
    some (.ok (.res p.key (p.resolved ++ res2), tr ++ tr2 ++ [p.key]))
  | some (.ok (.inl v, tr)) => some (.ok (v, tr))

/-! ## The `tinydi` container (`src/tinydi/di.py`)

`TinyDI.__setitem__` snapshots the *node objects* of the sub-dependencies at
registration time (`_get_factories_for_func` returns `(arg,
self._get_factory(factory))` pairs, i.e. actual `Dependency` objects), so a
registered `tinydi` dependency is a finite tree of nodes. -/

/-- A registered `tinydi` `Dependency`: the factory's key, whether the
factory itself is a coroutine function, and the named sub-dependency nodes
captured at registration.  Modelled from the spec where
`tinydi/dependency.py` is missing. -/
inductive TDep where
  | mk : Key → Bool → List (String × TDep) → TDep

def TDep.key : TDep → Key
  | .mk k _ _ => k

/-- The factory's own async flag (`iscoroutinefunction`). -/
def TDep.ownAsync : TDep → Bool
  | .mk _ a _ => a

def TDep.kwargs : TDep → List (String × TDep)
  | .mk _ _ kws => kws

mutual
/-- Source `Dependency.is_async`.  Modelled from the spec: a node's `is_async` flag
is true iff its own factory is asynchronous or, transitively, some kwarg's
resolution chain contains an asynchronous factory. -/
def TDep.isAsync : TDep → Bool
  | .mk _ own kws => own || anyAsync kws

def anyAsync : List (String × TDep) → Bool
  | [] => false
  | (_, d) :: rest => d.isAsync || anyAsync rest
end

mutual
/-- The value produced by resolving a `tinydi` node (`Dependency.call` /
`acall`): invoke each sub-dependency in declared order, then the node's own
factory with the named results.  Modelled from the spec (§4.4): `acall`
awaits an asynchronous factory and otherwise behaves identically to
`call`, so both produce the same symbolic value. -/
def TDep.aeval : TDep → Value
  | .mk k _ kws => .res k (evalKwargs kws)

def evalKwargs : List (String × TDep) → List (String × Value)
  | [] => []
  | (n, d) :: rest => (n, d.aeval) :: evalKwargs rest
end

mutual
/-- The factory-invocation order of resolving a `tinydi` node: each
sub-dependency's invocations in declared order, then the node's own
factory. -/
def TDep.atrace : TDep → List Key
  | .mk k _ kws => traceKwargs kws ++ [k]

def traceKwargs : List (String × TDep) → List Key
  | [] => []
  | (_, d) :: rest => d.atrace ++ traceKwargs rest
end

/-- Relation: `sub` occurs as a node of the registration tree `d` (the dependency
closure snapshotted at registration). -/
inductive Subnode : TDep → TDep → Prop where
  | refl (d : TDep) : Subnode d d
  | step {sub d : TDep} {n : String} {k : Key} {own : Bool}
      {kws : List (String × TDep)} :
      (n, d) ∈ kws → Subnode sub d → Subnode sub (.mk k own kws)

/-- One layer of the `tinydi` container's `ChainMap`. -/
abbrev TLayer := List (Key × TDep)

/-- The `tinydi` container's layered storage (`self._deps`). -/
abbrev TStorage := List TLayer

def talookup : TLayer → Key → Option TDep
  | [], _ => none
  | (k', v) :: rest, k => if k = k' then some v else talookup rest k

/-- Lookup through the layers, innermost first (`self._deps[key]`). -/
def tfind? : TStorage → Key → Option TDep
  | [], _ => none
  | l :: rest, k =>
    match talookup l k with
    | some d => some d
    | none => tfind? rest k

/-- Membership `key in self` (`TinyDI.__contains__`). -/
def tcontains (s : TStorage) (k : Key) : Bool := (tfind? s k).isSome

/-- Source `TinyDI.__getitem__` / `get`: look the node up (`_get_factory`, raising
`UnknownDependency(key)` on a miss), refuse asynchronous dependencies with
the invalid-operation error, otherwise `dependency.call()`.  The second
component is the trace of factory invocations performed (empty when the
call failed). -/
def tdiGet (s : TStorage) (k : Key) : Except Err Value × List Key :=
  match tfind? s k with
  | none => (.error (.unknownDependency k), [])
  | some d =>
    if d.isAsync then (.error .invalidAsyncAccess, [])
    else (.ok d.aeval, d.atrace)

/-- Source `TinyDI.aget`: look the node up, then `await dependency.acall()` if it is
asynchronous, else `dependency.call()`. -/
def tdiAget (s : TStorage) (k : Key) : Except Err Value × List Key :=
  match tfind? s k with
  | none => (.error (.unknownDependency k), [])
  | some d =>
    if d.isAsync then (.ok d.aeval, d.atrace)
    else (.ok d.aeval, d.atrace)

/-- Step `self._deps = self._deps.new_child()` at entry of `TinyDI.override`. -/
def tenterScope (s : TStorage) : TStorage := [] :: s

/-- Step `self._deps = self._deps.parents` at exit of `TinyDI.override`. -/
def texitScope (s : TStorage) : TStorage := s.tail

/-- Collect the sub-dependency nodes named by a factory's annotations
(`TinyDI._get_factories_for_func`): each annotated factory key is looked up
with `_get_factory`, raising `UnknownDependency` if absent. -/
def collectFactories (s : TStorage) : List (String × Key) → Except Err (List (String × TDep))
  | [] => .ok []
  | (n, fk) :: rest =>
    match tfind? s fk with
    | none => .error (.unknownDependency fk)
    | some d =>
      match collectFactories s rest with
      | .error e => .error e
      | .ok kws => .ok ((n, d) :: kws)

/-- Source `TinyDI.__setitem__` for a registration of key `k` whose factory has
async flag `own` and injectable annotations `anns`: resolve the annotated
factories against the current storage, build the `Dependency` node, and
write it into the innermost layer. -/
def tdiSetItem (s : TStorage) (k : Key) (own : Bool) (anns : List (String × Key)) :
    Except Err TStorage :=
  match collectFactories s anns with
  | .error e => .error e
  | .ok kws =>
    .ok (match s with
      | [] => [[(k, TDep.mk k own kws)]]
      | l :: rest => ((k, TDep.mk k own kws) :: l) :: rest)

/-- The storage observable after a `tinydi` registration attempt. -/
def tdiSetItemState (s : TStorage) (k : Key) (own : Bool)
    (anns : List (String × Key)) : TStorage :=
  match tdiSetItem s k own anns with
  | .ok s' => s'
  | .error _ => s

/-- A sequence of registrations, applied left to right. -/
def applyTRegs (s : TStorage) : List (Key × Bool × List (String × Key)) → TStorage
  | [] => s
  | (k, own, anns) :: rest => applyTRegs (tdiSetItemState s k own anns) rest

/-! ## Scope policies (`Factory` / `Singleton`)

`dimi/scopes.py` and `tinydi/scopes.py` are not in src.  Modelled from the
spec (§4.4): a scope policy wraps a factory; the `Factory` variant always
invokes it, the `Singleton`-like variant caches the first result and returns
it thereafter without re-invoking.  Invoking the factory of key `k` while the
allocation counter is `n` produces the identity-tagged object
`Value.inst k n` and bumps the counter, so distinct invocations yield
distinguishable objects. -/

inductive ScopeKind where
  | factory
  | singleton

/-- Outcome of one `call`/`acall` through a scope policy: the value handed
back, the policy's cached value afterwards, the allocation counter
afterwards, and how many times the wrapped factory was invoked (0 or 1). -/
structure CallOut where
  value : Value
  cached : Option Value
  ctr : Nat
  invocations : Nat

/-- Modelled from the spec: materialize a value through a scope policy.
`factory` never caches and always re-invokes; `singleton` returns its cached
value without invoking when present, otherwise invokes once and stores the
result. -/
def scopeCall (kind : ScopeKind) (k : Key) (cached : Option Value) (ctr : Nat) : CallOut :=
  match kind with
  | .factory => ⟨.inst k ctr, cached, ctr + 1, 1⟩
  | .singleton =>
    match cached with
    | some v => ⟨v, some v, ctr, 0⟩
    | none => ⟨.inst k ctr, some (.inst k ctr), ctr + 1, 1⟩

/-! ## Proof-side definitions and example fixtures -/

/-- Number of white (unvisited) registered keys under a coloring. -/
def whites (s : Storage) (colors : Key → Nat) : Nat :=
  ((domFinset s).filter (fun x => colors x = 0)).card

/-- Every gray key reaches `k` (the gray keys are the ancestors on the
current walk stack). -/
def GraysReach (s : Storage) (colors : Key → Nat) (k : Key) : Prop :=
  ∀ g, colors g = 1 → Reach s g k

/-- Black keys are fully explored: everything they reach is registered and
no cycle is reachable from them. -/
def BlackInv (s : Storage) (colors : Key → Nat) : Prop :=
  ∀ b, colors b = 2 →
    (∀ m, Reach s b m → (find? s m).isSome) ∧
    (∀ c, Reach s b c → ¬ Relation.TransGen (EdgeP s) c c)

/-- The set of keys reachable from `k`. -/
def ReachSet (s : Storage) (k : Key) : Set Key := {m | Reach s k m}

/-- The spec's example chain (§8): keys 0 = `A` (sync, no deps),
1 = `B` (sync, depends on `A`), 2 = `C` (async, depends on `B`),
3 = `D` (sync, depends on `C`). -/
def chainStorage : Storage :=
  [[(0, ⟨false, []⟩), (1, ⟨false, [⟨"a", 0, []⟩]⟩),
    (2, ⟨true, [⟨"b", 1, []⟩]⟩), (3, ⟨false, [⟨"c", 2, []⟩]⟩)]]

/-- A storage holding `1 ↦ (depends on 0)` and `0 ↦ (no deps)`. -/
def regStore : Storage := [[(1, ⟨false, [⟨"x", 0, []⟩]⟩), (0, ⟨false, []⟩)]]

/-- A candidate node for key 0 depending on key 1 — registering it would
close the cycle `0 → 1 → 0`. -/
def regCand : Dep := ⟨false, [⟨"y", 1, []⟩]⟩

/-- A registered `tinydi` node whose factory is asynchronous. -/
def asyncLeaf : TDep := .mk 2 true []

/-- A registered `tinydi` node with a synchronous factory whose closure
contains the asynchronous node `asyncLeaf`. -/
def syncTop : TDep := .mk 3 false [("c", asyncLeaf)]

/-- A `tinydi` container holding `syncTop` under key 3. -/
def tStore : TStorage := [[(3, syncTop)]]

/-- A storage holding a node (key 4) with a dangling edge to the
unregistered key 7 — only constructible by hand, since `register` refuses
dangling closures, but `lookup`/`resolve` must still fail on it as the spec
describes. -/
def missStore : Storage := [[(4, ⟨false, [⟨"a", 7, []⟩]⟩)]]

/-- A candidate for key 0 depending on the registered key 1 and on the
unregistered key 99: the detector's walk meets the cycle `0 → 1 → 0` before
it ever looks 99 up. -/
def missCand : Dep := ⟨false, [⟨"a", 1, []⟩, ⟨"m", 99, []⟩]⟩

/-- A container with a single empty layer (`ChainMap()`), and a candidate
for key 5 depending only on the unregistered key 99. -/
def leafStore : Storage := [[]]

def missLeafCand : Dep := ⟨false, [⟨"m", 99, []⟩]⟩

/-! ## Basic lemmas about lookup and the dependency graph -/

theorem alookup_some_mem {l : Layer} {k : Key} {d : Dep}
    (h : alookup l k = some d) : (k, d) ∈ l := by
  induction l with
  | nil => simp [alookup] at h
  | cons p rest ih =>
    obtain ⟨k', v⟩ := p
    by_cases hk : k = k'
    · subst hk
      simp [alookup] at h
      simp [h]
    · simp [alookup, hk] at h
      exact List.mem_cons_of_mem _ (ih h)

theorem find?_some_mem {s : Storage} {k : Key} {d : Dep}
    (h : find? s k = some d) : ∃ l ∈ s, (k, d) ∈ l := by
  induction s with
  | nil => simp [find?] at h
  | cons l rest ih =>
    rw [find?] at h
    cases hl : alookup l k with
    | some v =>
      rw [hl] at h
      cases h
      exact ⟨l, List.mem_cons_self .., alookup_some_mem hl⟩
    | none =>
      rw [hl] at h
      obtain ⟨l', hl', hm⟩ := ih h
      exact ⟨l', List.mem_cons_of_mem _ hl', hm⟩

theorem find?_some_mem_dom {s : Storage} {k : Key} {d : Dep}
    (h : find? s k = some d) : k ∈ domFinset s := by
  obtain ⟨l, hl, hm⟩ := find?_some_mem h
  simp only [domFinset, domKeys, List.mem_toFinset, List.mem_flatMap]
  exact ⟨l, hl, List.mem_map.mpr ⟨(k, d), hm, rfl⟩⟩

theorem edge_src_find {s : Storage} {a b : Key} (h : EdgeP s a b) :
    ∃ d, find? s a = some d ∧ b ∈ d.kwargs.map (fun kw => kw.func) := by
  unfold EdgeP succs at h
  cases hf : find? s a with
  | none => rw [hf] at h; simp at h
  | some d => rw [hf] at h; exact ⟨d, rfl, h⟩

theorem reach_mem_univ {s : Storage} {k m : Key} (h : Reach s k m) :
    m ∈ keyUniv s k := by
  induction h with
  | refl => simp [keyUniv]
  | tail _ hbm ih =>
    obtain ⟨d, hfind, hmem⟩ := edge_src_find hbm
    obtain ⟨l, hl, hdl⟩ := find?_some_mem hfind
    simp only [keyUniv, Finset.mem_insert, Finset.mem_union, List.mem_toFinset]
    refine Or.inr (Or.inr ?_)
    simp only [targetKeys, List.mem_flatMap]
    exact ⟨l, hl, ⟨_, hdl, hmem⟩⟩

theorem edgeP_of_kwarg {s : Storage} {a : Key} {d : Dep}
    (hf : find? s a = some d) {kw : Kwarg} (hkw : kw ∈ d.kwargs) :
    EdgeP s a kw.func := by
  unfold EdgeP succs
  rw [hf]
  exact List.mem_map.mpr ⟨kw, hkw, rfl⟩

/-! ## Unfolding lemmas for the cycle-detector walk -/

theorem dfsC_foldl (s : Storage) (fuel : Nat) (xs : List Key) (acc : CycRes) :
    xs.foldl
      (fun (acc : CycRes) (x : Key) =>
        match acc with
        | .ok c => dfsC s fuel c x
        | r => r) acc =
    (match acc with
     | .ok colors => dfsL s fuel colors xs
     | r => r) := by
  induction xs generalizing acc with
  | nil => cases acc <;> rfl
  | cons x xs ih =>
    rw [List.foldl_cons, ih]
    cases acc with
    | ok colors => cases h : dfsC s fuel colors x <;> simp [dfsL, h]
    | cyc => rfl
    | missing m => rfl
    | out => rfl

/-- One-step unfolding of `dfsC` with positive fuel, phrased through
`dfsL`. -/
theorem dfsC_succ (s : Storage) (fuel : Nat) (colors : Key → Nat) (k : Key) :
    dfsC s (fuel + 1) colors k =
      (if colors k = 1 then .cyc
       else if colors k = 2 then .ok colors
       else
         match find? s k with
         | none => .missing k
         | some d =>
           match dfsL s fuel (fun x => if x = k then 1 else colors x)
               (d.kwargs.map (fun kw => kw.func)) with
           | .ok colors2 => .ok (fun x => if x = k then 2 else colors2 x)
           | r => r) := by
  rw [dfsC]
  simp only [dfsC_foldl]

/-! ## Unfolding lemmas for the phase-1 walk -/

theorem processKwargs_foldr (s : Storage) (fuel : Nat) (kws : List Kwarg) :
    kws.foldr
      (fun kw acc => stepKwarg kw (dfsSync s fuel false kw.func) acc)
      (some (.ok ([], [], []))) = processKwargs s fuel kws := by
  induction kws with
  | nil => rfl
  | cons kw rest ih => rw [List.foldr_cons, ih]; rfl

/-- One-step unfolding of `dfsSync` with positive fuel, phrased through
`processKwargs`. -/
theorem dfsSync_succ (s : Storage) (fuel : Nat) (top : Bool) (k : Key) :
    dfsSync s (fuel + 1) top k =
      (match lookup s k with
       | .error e => some (.error e)
       | .ok d =>
         match processKwargs s fuel d.kwargs with
         | none => none
         | some (.error e) => some (.error e)
         | some (.ok (res, pend, tr)) =>
           if top || d.isAsync || !pend.isEmpty then
             some (.ok (.inr (.mk k d.isAsync res pend), tr))
           else
             some (.ok (.inl (.res k res), tr ++ [k]))) := by
  rw [dfsSync]
  simp only [processKwargs_foldr]

theorem lookup_ok_iff {s : Storage} {k : Key} {d : Dep} :
    lookup s k = .ok d ↔ find? s k = some d := by
  unfold lookup
  cases find? s k <;> simp

theorem lookup_none {s : Storage} {k : Key} (h : find? s k = none) :
    lookup s k = .error (.unknownDependency k) := by
  unfold lookup
  rw [h]

/-- Unfolding `dfsSync` when the key is registered. -/
theorem dfsSync_succ_some {s : Storage} {fuel : Nat} {top : Bool} {k : Key}
    {d : Dep} (hfk : find? s k = some d) :
    dfsSync s (fuel + 1) top k =
      (match processKwargs s fuel d.kwargs with
       | none => none
       | some (.error e) => some (.error e)
       | some (.ok (res, pend, tr)) =>
         if top || d.isAsync || !pend.isEmpty then
           some (.ok (.inr (.mk k d.isAsync res pend), tr))
         else
           some (.ok (.inl (.res k res), tr ++ [k]))) := by
  rw [dfsSync_succ, lookup_ok_iff.mpr hfk]

/-- Unfolding `dfsSync` when the key is unregistered: `UnknownDependency` at once. -/
theorem dfsSync_succ_none {s : Storage} {fuel : Nat} {top : Bool} {k : Key}
    (hfk : find? s k = none) :
    dfsSync s (fuel + 1) top k = some (.error (.unknownDependency k)) := by
  rw [dfsSync_succ, lookup_none hfk]

/-- Unfolding `dfsSync` once the kwargs loop has finished: invoke the factory now iff
the node is not top-level, its own factory is synchronous, and no kwarg is
pending. -/
theorem dfsSync_step_ok {s : Storage} {fuel : Nat} {top : Bool} {k : Key}
    {d : Dep} {res : List (String × Value)} {pend : List (Kwarg × Part)}
    {tr : List Key} (hfk : find? s k = some d)
    (hpk : processKwargs s fuel d.kwargs = some (.ok (res, pend, tr))) :
    dfsSync s (fuel + 1) top k =
      (if top || d.isAsync || !pend.isEmpty then
        some (.ok (.inr (.mk k d.isAsync res pend), tr))
      else
        some (.ok (.inl (.res k res), tr ++ [k]))) := by
  rw [dfsSync_succ_some hfk, hpk]

/-- Unfolding `dfsSync` when the kwargs loop raised. -/
theorem dfsSync_step_err {s : Storage} {fuel : Nat} {top : Bool} {k : Key}
    {d : Dep} {e : Err} (hfk : find? s k = some d)
    (hpk : processKwargs s fuel d.kwargs = some (.error e)) :
    dfsSync s (fuel + 1) top k = some (.error e) := by
  rw [dfsSync_succ_some hfk, hpk]

/-- Unfolding `dfsSync` when the kwargs loop ran out of fuel. -/
theorem dfsSync_step_out {s : Storage} {fuel : Nat} {top : Bool} {k : Key}
    {d : Dep} (hfk : find? s k = some d)
    (hpk : processKwargs s fuel d.kwargs = none) :
    dfsSync s (fuel + 1) top k = none := by
  rw [dfsSync_succ_some hfk, hpk]

/-! ## Invariants of the coloring walk -/

/-- Colors only move upward (white → gray → black), stay in range, gray keys
are exactly preserved by a successful sub-walk, and a successful walk leaves
its root (resp. every listed key) black. -/
theorem dfs_mono_black (s : Storage) : ∀ fuel : Nat,
    (∀ colors k colors', (∀ x, colors x ≤ 2) → dfsC s fuel colors k = .ok colors' →
      (∀ x, colors x ≤ colors' x) ∧ (∀ x, colors' x ≤ 2) ∧
      (∀ x, colors x = 1 ↔ colors' x = 1) ∧ colors' k = 2) ∧
    (∀ colors xs colors', (∀ x, colors x ≤ 2) → dfsL s fuel colors xs = .ok colors' →
      (∀ x, colors x ≤ colors' x) ∧ (∀ x, colors' x ≤ 2) ∧
      (∀ x, colors x = 1 ↔ colors' x = 1) ∧ ∀ x ∈ xs, colors' x = 2) := by
  intro fuel
  induction fuel with
  | zero =>
    constructor
    · intro colors k colors' _ hok
      simp [dfsC] at hok
    · intro colors xs colors' hle hok
      cases xs with
      | nil =>
        simp only [dfsL] at hok
        cases hok
        exact ⟨fun x => le_refl _, hle, fun x => Iff.rfl, by simp⟩
      | cons x xs => simp [dfsL, dfsC] at hok
  | succ fuel ih =>
    have ihC := ih.1
    have ihL := ih.2
    have mainC : ∀ colors k colors', (∀ x, colors x ≤ 2) →
        dfsC s (fuel + 1) colors k = .ok colors' →
        (∀ x, colors x ≤ colors' x) ∧ (∀ x, colors' x ≤ 2) ∧
        (∀ x, colors x = 1 ↔ colors' x = 1) ∧ colors' k = 2 := by
      intro colors k colors' hle hok
      rw [dfsC_succ] at hok
      by_cases h1 : colors k = 1
      · rw [if_pos h1] at hok; simp at hok
      · rw [if_neg h1] at hok
        by_cases h2 : colors k = 2
        · rw [if_pos h2] at hok
          cases hok
          exact ⟨fun x => le_refl _, hle, fun x => Iff.rfl, h2⟩
        · rw [if_neg h2] at hok
          have hk0 : colors k = 0 := by have := hle k; omega
          cases hf : find? s k with
          | none => simp [hf] at hok
          | some d =>
            cases hL : dfsL s fuel (fun x => if x = k then 1 else colors x)
                (d.kwargs.map (fun kw => kw.func)) with
            | ok colors2 =>
              simp only [hf, hL] at hok
              injection hok with h
              subst h
              have hle1 : ∀ x, (fun x => if x = k then 1 else colors x) x ≤ 2 := by
                intro x
                by_cases hx : x = k <;> simp [hx, hle x]
              obtain ⟨hmono, hbnd, hgray, _⟩ := ihL _ _ _ hle1 hL
              refine ⟨?_, ?_, ?_, by simp⟩
              · intro x
                by_cases hx : x = k
                · subst hx; simp [hk0]
                · have := hmono x
                  simp [hx] at this ⊢
                  exact this
              · intro x
                by_cases hx : x = k <;> simp [hx, hbnd x]
              · intro x
                by_cases hx : x = k
                · subst hx; simp [hk0]
                · have := hgray x
                  simp [hx] at this ⊢
                  exact this
            | cyc => simp [hf, hL] at hok
            | missing m => simp [hf, hL] at hok
            | out => simp [hf, hL] at hok
    refine ⟨mainC, ?_⟩
    intro colors xs
    induction xs generalizing colors with
    | nil =>
      intro colors' hle hok
      simp only [dfsL] at hok
      cases hok
      exact ⟨fun x => le_refl _, hle, fun x => Iff.rfl, by simp⟩
    | cons x xs ihxs =>
      intro colors' hle hok
      rw [dfsL] at hok
      cases hC : dfsC s (fuel + 1) colors x with
      | ok c1 =>
        simp only [hC] at hok
        obtain ⟨m1, b1, g1, bk1⟩ := mainC _ _ _ hle hC
        obtain ⟨m2, b2, g2, bk2⟩ := ihxs _ _ b1 hok
        refine ⟨fun y => le_trans (m1 y) (m2 y), b2,
          fun y => (g1 y).trans (g2 y), ?_⟩
        intro y hy
        rcases List.mem_cons.mp hy with hy | hy
        · subst hy
          have := m2 y
          have := b2 y
          omega
        · exact bk2 y hy
      | cyc => simp [hC] at hok
      | missing m => simp [hC] at hok
      | out => simp [hC] at hok

/-- Soundness of the cycle report: a `cyc` result means the walk's root was
already gray, or a genuine cycle is reachable from it. -/
theorem dfs_sound (s : Storage) : ∀ fuel : Nat,
    (∀ colors k, (∀ x, colors x ≤ 2) → GraysReach s colors k →
      dfsC s fuel colors k = .cyc →
      colors k = 1 ∨ ∃ c, Reach s k c ∧ Relation.TransGen (EdgeP s) c c) ∧
    (∀ colors p xs, (∀ x, colors x ≤ 2) → (∀ x ∈ xs, EdgeP s p x) →
      GraysReach s colors p → colors p = 1 →
      dfsL s fuel colors xs = .cyc →
      ∃ c, Reach s p c ∧ Relation.TransGen (EdgeP s) c c) := by
  intro fuel
  induction fuel with
  | zero =>
    constructor
    · intro colors k _ _ hcyc
      simp [dfsC] at hcyc
    · intro colors p xs _ _ _ _ hcyc
      cases xs with
      | nil => simp [dfsL] at hcyc
      | cons x xs => simp [dfsL, dfsC] at hcyc
  | succ fuel ih =>
    have mainC : ∀ colors k, (∀ x, colors x ≤ 2) → GraysReach s colors k →
        dfsC s (fuel + 1) colors k = .cyc →
        colors k = 1 ∨ ∃ c, Reach s k c ∧ Relation.TransGen (EdgeP s) c c := by
      intro colors k hle hgr hcyc
      rw [dfsC_succ] at hcyc
      by_cases h1 : colors k = 1
      · exact Or.inl h1
      · rw [if_neg h1] at hcyc
        by_cases h2 : colors k = 2
        · rw [if_pos h2] at hcyc; simp at hcyc
        · rw [if_neg h2] at hcyc
          cases hf : find? s k with
          | none => simp [hf] at hcyc
          | some d =>
            cases hL : dfsL s fuel (fun x => if x = k then 1 else colors x)
                (d.kwargs.map (fun kw => kw.func)) with
            | ok c2 => simp [hf, hL] at hcyc
            | cyc =>
              refine Or.inr (ih.2 (fun x => if x = k then 1 else colors x) k
                (d.kwargs.map (fun kw => kw.func)) ?_ ?_ ?_ (by simp) hL)
              · intro x
                by_cases hx : x = k <;> simp [hx, hle x]
              · intro x hx
                unfold EdgeP succs
                rw [hf]
                exact hx
              · intro g hg
                by_cases hgk : g = k
                · subst hgk; exact Relation.ReflTransGen.refl
                · simp [hgk] at hg
                  exact hgr g hg
            | missing m => simp [hf, hL] at hcyc
            | out => simp [hf, hL] at hcyc
    refine ⟨mainC, ?_⟩
    intro colors p xs
    induction xs generalizing colors with
    | nil =>
      intro _ _ _ _ hcyc
      simp [dfsL] at hcyc
    | cons x xs ihxs =>
      intro hle hedge hgr hp hcyc
      rw [dfsL] at hcyc
      cases hC : dfsC s (fuel + 1) colors x with
      | ok c1 =>
        simp only [hC] at hcyc
        obtain ⟨m1, b1, g1, bk1⟩ := (dfs_mono_black s (fuel + 1)).1 _ _ _ hle hC
        exact ihxs c1 b1 (fun y hy => hedge y (List.mem_cons_of_mem _ hy))
          (fun g hg => hgr g ((g1 g).mpr hg)) ((g1 p).mp hp) hcyc
      | cyc =>
        have hex : EdgeP s p x := hedge x (List.mem_cons_self ..)
        have hgx : GraysReach s colors x := by
          intro g hg
          exact Relation.ReflTransGen.tail (hgr g hg) hex
        rcases mainC colors x hle hgx hC with hx1 | ⟨c, hreach, htg⟩
        · exact ⟨x, Relation.ReflTransGen.single hex,
            Relation.TransGen.tail' (hgr x hx1) hex⟩
        · exact ⟨c, Relation.ReflTransGen.head hex hreach, htg⟩
      | missing m => simp [hC] at hcyc
      | out => simp [hC] at hcyc

/-- Completeness invariant: a successful walk preserves `BlackInv`, so after
it every blackened subtree is registered throughout and cycle-free. -/
theorem dfs_complete (s : Storage) : ∀ fuel : Nat,
    (∀ colors k colors', (∀ x, colors x ≤ 2) → BlackInv s colors →
      dfsC s fuel colors k = .ok colors' → BlackInv s colors') ∧
    (∀ colors xs colors', (∀ x, colors x ≤ 2) → BlackInv s colors →
      dfsL s fuel colors xs = .ok colors' → BlackInv s colors') := by
  intro fuel
  induction fuel with
  | zero =>
    constructor
    · intro colors k colors' _ _ hok
      simp [dfsC] at hok
    · intro colors xs colors' _ hbi hok
      cases xs with
      | nil => simp only [dfsL] at hok; cases hok; exact hbi
      | cons x xs => simp [dfsL, dfsC] at hok
  | succ fuel ih =>
    have mainC : ∀ colors k colors', (∀ x, colors x ≤ 2) → BlackInv s colors →
        dfsC s (fuel + 1) colors k = .ok colors' → BlackInv s colors' := by
      intro colors k colors' hle hbi hok
      rw [dfsC_succ] at hok
      by_cases h1 : colors k = 1
      · rw [if_pos h1] at hok; simp at hok
      · rw [if_neg h1] at hok
        by_cases h2 : colors k = 2
        · rw [if_pos h2] at hok
          injection hok with h
          subst h
          exact hbi
        · rw [if_neg h2] at hok
          cases hf : find? s k with
          | none => simp [hf] at hok
          | some d =>
            cases hL : dfsL s fuel (fun x => if x = k then 1 else colors x)
                (d.kwargs.map (fun kw => kw.func)) with
            | ok colors2 =>
              simp only [hf, hL] at hok
              injection hok with h
              subst h
              have hle1 : ∀ x, (fun x => if x = k then 1 else colors x) x ≤ 2 := by
                intro x
                by_cases hx : x = k <;> simp [hx, hle x]
              have hbi1 : BlackInv s (fun x => if x = k then 1 else colors x) := by
                intro b hb
                by_cases hbk : b = k
                · simp [hbk] at hb
                · simp [hbk] at hb
                  exact hbi b hb
              have hbi2 : BlackInv s colors2 := ih.2 _ _ _ hle1 hbi1 hL
              obtain ⟨hmono, hbnd, hgray, hblack⟩ :=
                (dfs_mono_black s fuel).2 _ _ _ hle1 hL
              have hsucc2 : ∀ y, EdgeP s k y → colors2 y = 2 := by
                intro y hy
                apply hblack
                unfold EdgeP succs at hy
                rw [hf] at hy
                exact hy
              intro b hb
              by_cases hbk : b = k
              · subst hbk
                constructor
                · intro m hm
                  rcases Relation.ReflTransGen.cases_head hm with hemk | ⟨y, hky, hym⟩
                  · rw [← hemk, hf]; rfl
                  · exact ((hbi2 y (hsucc2 y hky)).1) m hym
                · intro c hc htg
                  rcases Relation.ReflTransGen.cases_head hc with heck | ⟨y, hky, hyc⟩
                  · subst heck
                    obtain ⟨y, hky, hyk⟩ := Relation.TransGen.head'_iff.mp htg
                    have h2y := hsucc2 y hky
                    exact (hbi2 y h2y).2 y Relation.ReflTransGen.refl
                      (Relation.TransGen.tail' hyk hky)
                  · exact (hbi2 y (hsucc2 y hky)).2 c hyc htg
              · simp only [if_neg hbk] at hb
                exact hbi2 b hb
            | cyc => simp [hf, hL] at hok
            | missing m => simp [hf, hL] at hok
            | out => simp [hf, hL] at hok
    refine ⟨mainC, ?_⟩
    intro colors xs
    induction xs generalizing colors with
    | nil =>
      intro colors' _ hbi hok
      simp only [dfsL] at hok
      cases hok
      exact hbi
    | cons x xs ihxs =>
      intro colors' hle hbi hok
      rw [dfsL] at hok
      cases hC : dfsC s (fuel + 1) colors x with
      | ok c1 =>
        simp only [hC] at hok
        obtain ⟨m1, b1, g1, bk1⟩ := (dfs_mono_black s (fuel + 1)).1 _ _ _ hle hC
        exact ihxs c1 colors' b1 (mainC _ _ _ hle hbi hC) hok
      | cyc => simp [hC] at hok
      | missing m => simp [hC] at hok
      | out => simp [hC] at hok

/-- A `missing` result names an unregistered key reachable from the walk's
root. -/
theorem dfs_missing (s : Storage) : ∀ fuel : Nat,
    (∀ colors k m, dfsC s fuel colors k = .missing m →
      Reach s k m ∧ find? s m = none) ∧
    (∀ colors xs p m, (∀ x ∈ xs, EdgeP s p x) → dfsL s fuel colors xs = .missing m →
      Reach s p m ∧ find? s m = none) := by
  intro fuel
  induction fuel with
  | zero =>
    constructor
    · intro colors k m hmk
      simp [dfsC] at hmk
    · intro colors xs p m _ hmk
      cases xs with
      | nil => simp [dfsL] at hmk
      | cons x xs => simp [dfsL, dfsC] at hmk
  | succ fuel ih =>
    have mainC : ∀ colors k m, dfsC s (fuel + 1) colors k = .missing m →
        Reach s k m ∧ find? s m = none := by
      intro colors k m hmk
      rw [dfsC_succ] at hmk
      by_cases h1 : colors k = 1
      · rw [if_pos h1] at hmk; simp at hmk
      · rw [if_neg h1] at hmk
        by_cases h2 : colors k = 2
        · rw [if_pos h2] at hmk; simp at hmk
        · rw [if_neg h2] at hmk
          cases hf : find? s k with
          | none =>
            simp only [hf] at hmk
            injection hmk with h
            subst h
            exact ⟨Relation.ReflTransGen.refl, hf⟩
          | some d =>
            cases hL : dfsL s fuel (fun x => if x = k then 1 else colors x)
                (d.kwargs.map (fun kw => kw.func)) with
            | missing m' =>
              simp only [hf, hL] at hmk
              injection hmk with h
              subst h
              refine ih.2 _ _ k _ ?_ hL
              intro x hx
              unfold EdgeP succs
              rw [hf]
              exact hx
            | ok c2 => simp [hf, hL] at hmk
            | cyc => simp [hf, hL] at hmk
            | out => simp [hf, hL] at hmk
    refine ⟨mainC, ?_⟩
    intro colors xs
    induction xs generalizing colors with
    | nil =>
      intro p m _ hmk
      simp [dfsL] at hmk
    | cons x xs ihxs =>
      intro p m hedge hmk
      rw [dfsL] at hmk
      cases hC : dfsC s (fuel + 1) colors x with
      | ok c1 =>
        simp only [hC] at hmk
        exact ihxs c1 p m (fun y hy => hedge y (List.mem_cons_of_mem _ hy)) hmk
      | missing m' =>
        simp only [hC] at hmk
        injection hmk with h
        subst h
        obtain ⟨hr, hn⟩ := mainC _ _ _ hC
        exact ⟨Relation.ReflTransGen.head (hedge x (List.mem_cons_self ..)) hr, hn⟩
      | cyc => simp [hC] at hmk
      | out => simp [hC] at hmk

theorem whites_mono {s : Storage} {colors colors' : Key → Nat}
    (hmono : ∀ x, colors x ≤ colors' x) : whites s colors' ≤ whites s colors := by
  apply Finset.card_le_card
  intro x hx
  simp only [Finset.mem_filter] at hx ⊢
  refine ⟨hx.1, ?_⟩
  have := hmono x
  omega

theorem whites_gray {s : Storage} {colors : Key → Nat} {k : Key}
    (hk : k ∈ domFinset s) (h0 : colors k = 0) :
    whites s (fun x => if x = k then 1 else colors x) + 1 = whites s colors := by
  unfold whites
  have hset : (domFinset s).filter (fun x => (if x = k then 1 else colors x) = 0) =
      ((domFinset s).filter (fun x => colors x = 0)).erase k := by
    ext x
    by_cases hx : x = k
    · subst hx
      simp
    · simp only [Finset.mem_filter, Finset.mem_erase, if_neg hx, hx]
      tauto
  have hkmem : k ∈ (domFinset s).filter (fun x => colors x = 0) :=
    Finset.mem_filter.mpr ⟨hk, h0⟩
  rw [hset, Finset.card_erase_of_mem hkmem]
  have hpos : 0 < ((domFinset s).filter (fun x => colors x = 0)).card :=
    Finset.card_pos.mpr ⟨k, hkmem⟩
  omega

/-- The walk never exhausts its fuel once the fuel exceeds the number of
white registered keys (each nesting level grays a fresh registered key). -/
theorem dfs_fuel (s : Storage) : ∀ fuel : Nat,
    (∀ colors k, (∀ x, colors x ≤ 2) → whites s colors < fuel →
      dfsC s fuel colors k ≠ .out) ∧
    (∀ colors xs, (∀ x, colors x ≤ 2) → whites s colors < fuel →
      dfsL s fuel colors xs ≠ .out) := by
  intro fuel
  induction fuel with
  | zero =>
    constructor
    · intro colors k _ hw
      omega
    · intro colors xs _ hw
      omega
  | succ fuel ih =>
    have mainC : ∀ colors k, (∀ x, colors x ≤ 2) → whites s colors < fuel + 1 →
        dfsC s (fuel + 1) colors k ≠ .out := by
      intro colors k hle hw
      rw [dfsC_succ]
      by_cases h1 : colors k = 1
      · simp [h1]
      · by_cases h2 : colors k = 2
        · simp [h1, h2]
        · simp only [if_neg h1, if_neg h2]
          have hk0 : colors k = 0 := by have := hle k; omega
          cases hf : find? s k with
          | none => simp
          | some d =>
            simp only []
            have hle1 : ∀ x, (fun x => if x = k then 1 else colors x) x ≤ 2 := by
              intro x
              by_cases hx : x = k <;> simp [hx, hle x]
            have hw1 : whites s (fun x => if x = k then 1 else colors x) < fuel := by
              have := whites_gray (find?_some_mem_dom hf) hk0
              omega
            cases hL : dfsL s fuel (fun x => if x = k then 1 else colors x)
                (d.kwargs.map (fun kw => kw.func)) with
            | out => exact absurd hL (ih.2 _ _ hle1 hw1)
            | ok c2 => simp [hL]
            | cyc => simp [hL]
            | missing m => simp [hL]
    refine ⟨mainC, ?_⟩
    intro colors xs
    induction xs generalizing colors with
    | nil =>
      intro _ _
      simp [dfsL]
    | cons x xs ihxs =>
      intro hle hw
      rw [dfsL]
      cases hC : dfsC s (fuel + 1) colors x with
      | ok c1 =>
        obtain ⟨m1, b1, g1, bk1⟩ := (dfs_mono_black s (fuel + 1)).1 _ _ _ hle hC
        have hw1 : whites s c1 < fuel + 1 := lt_of_le_of_lt (whites_mono m1) hw
        exact ihxs c1 b1 hw1
      | cyc => simp
      | missing m => simp
      | out => exact absurd hC (mainC _ _ hle hw)

/-! ## Characterization of `hasCycle` -/

theorem whites_zero (s : Storage) : whites s (fun _ => 0) = (domFinset s).card := by
  unfold whites
  rw [Finset.filter_true_of_mem (fun x _ => rfl)]

/-- A `True` verdict of the detector is sound: a cycle really is reachable
from the candidate key. -/
theorem hasCycle_true_sound {s : Storage} {k : Key} (h : hasCycle s k = .ok true) :
    HasCycleFrom s k := by
  unfold hasCycle at h
  cases hd : dfsC s (cbound s) (fun _ => 0) k with
  | cyc =>
    rcases (dfs_sound s (cbound s)).1 (fun _ => 0) k (fun x => by simp)
        (fun g hg => absurd hg (by simp)) hd with h0 | hc
    · simp at h0
    · exact hc
  | ok c => simp [hd] at h
  | missing m => simp [hd] at h
  | out => simp [hd] at h

/-- A `False` verdict of the detector is complete: no cycle is reachable
from the candidate key, and its whole closure is registered. -/
theorem hasCycle_false_complete {s : Storage} {k : Key}
    (h : hasCycle s k = .ok false) : AcyclicFrom s k ∧ ClosurePresent s k := by
  unfold hasCycle at h
  cases hd : dfsC s (cbound s) (fun _ => 0) k with
  | ok c =>
    have hbi : BlackInv s c :=
      (dfs_complete s (cbound s)).1 _ _ _ (fun x => by simp)
        (fun b hb => absurd hb (by simp)) hd
    have hbk : c k = 2 :=
      ((dfs_mono_black s (cbound s)).1 _ _ _ (fun x => by simp) hd).2.2.2
    exact ⟨(hbi k hbk).2, (hbi k hbk).1⟩
  | cyc => simp [hd] at h
  | missing m => simp [hd] at h
  | out =>
    exact absurd hd ((dfs_fuel s (cbound s)).1 (fun _ => 0) k (fun x => by simp)
      (by rw [whites_zero]; unfold cbound; omega))

/-- An error of the detector is an `UnknownDependency` naming an
unregistered key reachable from the candidate key. -/
theorem hasCycle_error {s : Storage} {k : Key} {e : Err}
    (h : hasCycle s k = .error e) :
    ∃ m, e = .unknownDependency m ∧ Reach s k m ∧ find? s m = none := by
  unfold hasCycle at h
  cases hd : dfsC s (cbound s) (fun _ => 0) k with
  | missing m =>
    simp only [hd] at h
    injection h with h
    obtain ⟨hr, hn⟩ := (dfs_missing s (cbound s)).1 _ _ _ hd
    exact ⟨m, h.symm, hr, hn⟩
  | ok c => simp [hd] at h
  | cyc => simp [hd] at h
  | out => simp [hd] at h

/-- When the candidate key's closure is fully registered, the detector never
raises. -/
theorem hasCycle_not_error {s : Storage} {k : Key} (hcp : ClosurePresent s k) :
    ∃ b, hasCycle s k = .ok b := by
  cases hh : hasCycle s k with
  | ok b => exact ⟨b, rfl⟩
  | error e =>
    obtain ⟨m, _, hr, hn⟩ := hasCycle_error hh
    have := hcp m hr
    rw [hn] at this
    simp at this

/-! ## The reachable set and its cardinality -/

theorem reachSet_finite (s : Storage) (k : Key) : (ReachSet s k).Finite :=
  Set.Finite.subset (keyUniv s k).finite_toSet (fun _ hm => reach_mem_univ hm)

theorem reachSet_ncard_lt_rbound (s : Storage) (k : Key) :
    (ReachSet s k).ncard < rbound s k := by
  have hsub : ReachSet s k ⊆ ↑(keyUniv s k) := fun _ hm => reach_mem_univ hm
  have := Set.ncard_le_ncard hsub (keyUniv s k).finite_toSet
  rw [Set.ncard_coe_Finset] at this
  unfold rbound
  omega

theorem acyclic_edge {s : Storage} {k x : Key} (hac : AcyclicFrom s k)
    (he : EdgeP s k x) : AcyclicFrom s x :=
  fun c hc => hac c (Relation.ReflTransGen.head he hc)

/-- Walking one edge of an acyclic region strictly shrinks the reachable
set. -/
theorem ncard_edge_lt {s : Storage} {k x : Key} (hac : AcyclicFrom s k)
    (he : EdgeP s k x) : (ReachSet s x).ncard < (ReachSet s k).ncard := by
  have hsub : ReachSet s x ⊆ ReachSet s k :=
    fun m hm => Relation.ReflTransGen.head he hm
  have hknotin : k ∉ ReachSet s x := by
    intro hxk
    exact hac k Relation.ReflTransGen.refl (Relation.TransGen.head' he hxk)
  have hkin : k ∈ ReachSet s k := Relation.ReflTransGen.refl
  have hss : ReachSet s x ⊂ ReachSet s k := by
    refine ssubset_of_subset_of_ne hsub ?_
    intro heq
    rw [heq] at hknotin
    exact hknotin hkin
  exact Set.ncard_lt_ncard hss (reachSet_finite s k)

/-! ## Termination and error characterization of the phase-1 walk -/

/-- Over an acyclic region the phase-1 walk returns within the fuel bound,
and any error it returns is an `UnknownDependency` naming an unregistered
reachable key. -/
theorem dfsSync_total (s : Storage) : ∀ fuel : Nat,
    (∀ top k, AcyclicFrom s k → (ReachSet s k).ncard < fuel →
      ∃ out, dfsSync s fuel top k = some out ∧
        ∀ e, out = .error e →
          ∃ m, e = .unknownDependency m ∧ find? s m = none ∧ Reach s k m) ∧
    (∀ kws : List Kwarg,
      (∀ kw ∈ kws, AcyclicFrom s kw.func ∧ (ReachSet s kw.func).ncard < fuel) →
      ∃ out, processKwargs s fuel kws = some out ∧
        ∀ e, out = .error e →
          ∃ kw ∈ kws, ∃ m, e = .unknownDependency m ∧ find? s m = none ∧
            Reach s kw.func m) := by
  intro fuel
  induction fuel with
  | zero =>
    constructor
    · intro top k _ hn
      omega
    · intro kws hkws
      cases kws with
      | nil => exact ⟨.ok ([], [], []), rfl, by simp⟩
      | cons kw rest =>
        have := (hkws kw (List.mem_cons_self ..)).2
        omega
  | succ fuel ih =>
    have mainC : ∀ top k, AcyclicFrom s k → (ReachSet s k).ncard < fuel + 1 →
        ∃ out, dfsSync s (fuel + 1) top k = some out ∧
          ∀ e, out = .error e →
            ∃ m, e = .unknownDependency m ∧ find? s m = none ∧ Reach s k m := by
      intro top k hac hn
      cases hfk : find? s k with
      | none =>
        refine ⟨.error (.unknownDependency k), dfsSync_succ_none hfk, ?_⟩
        intro e he
        injection he with he
        exact ⟨k, he.symm, hfk, Relation.ReflTransGen.refl⟩
      | some d =>
        have hkws : ∀ kw ∈ d.kwargs,
            AcyclicFrom s kw.func ∧ (ReachSet s kw.func).ncard < fuel := by
          intro kw hkw
          have he : EdgeP s k kw.func := edgeP_of_kwarg hfk hkw
          have := ncard_edge_lt hac he
          exact ⟨acyclic_edge hac he, by omega⟩
        obtain ⟨pout, hpk, perr⟩ := ih.2 d.kwargs hkws
        cases pout with
        | error e =>
          refine ⟨.error e, dfsSync_step_err hfk hpk, ?_⟩
          intro e' he'
          injection he' with he'
          subst he'
          obtain ⟨kw, hkw, m, hm, hn0, hr⟩ := perr e rfl
          exact ⟨m, hm, hn0,
            Relation.ReflTransGen.head (edgeP_of_kwarg hfk hkw) hr⟩
        | ok out =>
          obtain ⟨res, pend, tr⟩ := out
          rw [dfsSync_step_ok hfk hpk]
          by_cases hcond : (top || d.isAsync || !pend.isEmpty) = true
          · rw [if_pos hcond]
            exact ⟨.ok (.inr (.mk k d.isAsync res pend), tr), rfl, by simp⟩
          · rw [if_neg hcond]
            exact ⟨.ok (.inl (.res k res), tr ++ [k]), rfl, by simp⟩
    refine ⟨mainC, ?_⟩
    intro kws hkws
    induction kws with
    | nil => exact ⟨.ok ([], [], []), rfl, by simp⟩
    | cons kw rest ihrest =>
      obtain ⟨subout, hsub, herr⟩ :=
        mainC false kw.func (hkws kw (List.mem_cons_self ..)).1
          (hkws kw (List.mem_cons_self ..)).2
      obtain ⟨racc, hracc, rerr⟩ :=
        ihrest (fun kw' hkw' => hkws kw' (List.mem_cons_of_mem _ hkw'))
      rw [show processKwargs s (fuel + 1) (kw :: rest) =
        stepKwarg kw (dfsSync s (fuel + 1) false kw.func)
          (processKwargs s (fuel + 1) rest) from rfl, hsub, hracc]
      cases subout with
      | error e =>
        refine ⟨.error e, rfl, ?_⟩
        intro e' he'
        injection he' with he'
        subst he'
        obtain ⟨m, hm, hn0, hr⟩ := herr e rfl
        exact ⟨kw, List.mem_cons_self .., m, hm, hn0, hr⟩
      | ok vp =>
        obtain ⟨v, tr⟩ := vp
        cases racc with
        | error e2 =>
          have hstep : ∀ (sub : (Value ⊕ Part) × List Key),
              stepKwarg kw (some (.ok sub)) (some (.error e2)) =
                some (.error e2) := by
            intro sub
            obtain ⟨v', tr'⟩ := sub
            cases v' <;> rfl
          rw [hstep]
          refine ⟨.error e2, rfl, ?_⟩
          intro e' he'
          injection he' with he'
          subst he'
          obtain ⟨kw', hkw', m, hm, hn0, hr⟩ := rerr e2 rfl
          exact ⟨kw', List.mem_cons_of_mem _ hkw', m, hm, hn0, hr⟩
        | ok r2 =>
          obtain ⟨res, pend, tr2⟩ := r2
          cases v with
          | inl v0 =>
            exact ⟨.ok ((kw.name, kw.getattrs v0) :: res, pend, tr ++ tr2),
              rfl, by simp⟩
          | inr p0 =>
            exact ⟨.ok (res, (kw, p0) :: pend, tr ++ tr2), rfl, by simp⟩

/-- A successful phase-1 walk certifies that the whole reachable closure of
its root is registered. -/
theorem dfsSync_ok_closure (s : Storage) : ∀ fuel : Nat,
    (∀ top k r, dfsSync s fuel top k = some (.ok r) → ClosurePresent s k) ∧
    (∀ kws r, processKwargs s fuel kws = some (.ok r) →
      ∀ kw ∈ kws, ClosurePresent s kw.func) := by
  intro fuel
  induction fuel with
  | zero =>
    constructor
    · intro top k r h
      simp [dfsSync] at h
    · intro kws r h kw hkw
      cases kws with
      | nil => simp at hkw
      | cons kw0 rest => simp [processKwargs, dfsSync, stepKwarg] at h
  | succ fuel ih =>
    have mainC : ∀ top k r, dfsSync s (fuel + 1) top k = some (.ok r) →
        ClosurePresent s k := by
      intro top k r h
      cases hfk : find? s k with
      | none => rw [dfsSync_succ_none hfk] at h; simp at h
      | some d =>
        cases hpk : processKwargs s fuel d.kwargs with
        | none => rw [dfsSync_step_out hfk hpk] at h; simp at h
        | some pout =>
          cases pout with
          | error e => rw [dfsSync_step_err hfk hpk] at h; simp at h
          | ok out =>
            have hsubs := ih.2 d.kwargs out hpk
            intro m hm
            rcases Relation.ReflTransGen.cases_head hm with hemk | ⟨y, hky, hym⟩
            · rw [← hemk, hfk]; rfl
            · unfold EdgeP succs at hky
              rw [hfk] at hky
              obtain ⟨kw, hkwmem, hkwf⟩ := List.mem_map.mp hky
              exact hsubs kw hkwmem m (hkwf ▸ hym)
    refine ⟨mainC, ?_⟩
    intro kws
    induction kws with
    | nil =>
      intro r _ kw hkw
      simp at hkw
    | cons kw0 rest ihrest =>
      intro r h kw hkw
      have hud : processKwargs s (fuel + 1) (kw0 :: rest) =
          stepKwarg kw0 (dfsSync s (fuel + 1) false kw0.func)
            (processKwargs s (fuel + 1) rest) := rfl
      rw [hud] at h
      cases hsub : dfsSync s (fuel + 1) false kw0.func with
      | none => rw [hsub] at h; simp [stepKwarg] at h
      | some sub =>
        cases sub with
        | error e => rw [hsub] at h; simp [stepKwarg] at h
        | ok vp =>
          obtain ⟨v, tr⟩ := vp
          rw [hsub] at h
          cases hacc : processKwargs s (fuel + 1) rest with
          | none =>
            rw [hacc] at h
            cases v <;> simp [stepKwarg] at h
          | some acc =>
            cases acc with
            | error e =>
              rw [hacc] at h
              cases v <;> simp [stepKwarg] at h
            | ok r2 =>
              rcases List.mem_cons.mp hkw with rfl | hkw'
              · exact mainC _ _ _ hsub
              · exact ihrest r2 hacc kw hkw'

/-! ## Derived facts about `resolve` and `aresolve` -/

/-- The top-level phase-1 call always hands back a partially-resolved node,
never a collapsed value. -/
theorem dfsSync_top_partial {s : Storage} {fuel : Nat} {k : Key}
    {r : Value ⊕ Part} {tr : List Key}
    (h : dfsSync s (fuel + 1) true k = some (.ok (r, tr))) :
    ∃ p, r = .inr p := by
  cases hfk : find? s k with
  | none => rw [dfsSync_succ_none hfk] at h; simp at h
  | some d =>
    cases hpk : processKwargs s fuel d.kwargs with
    | none => rw [dfsSync_step_out hfk hpk] at h; simp at h
    | some pout =>
      cases pout with
      | error e => rw [dfsSync_step_err hfk hpk] at h; simp at h
      | ok out =>
        obtain ⟨res, pend, tr2⟩ := out
        rw [dfsSync_step_ok hfk hpk, if_pos (by simp)] at h
        simp at h
        exact ⟨_, h.1.symm⟩

theorem resolve_of_top {s : Storage} {k : Key} {p : Part} {tr : List Key}
    (h : dfsSync s (rbound s k) true k = some (.ok (.inr p, tr))) :
    resolve s k = some (.ok (.res p.key p.resolved, tr ++ [p.key])) := by
  unfold resolve
  rw [h]

theorem aresolve_of_top {s : Storage} {k : Key} {p : Part} {tr : List Key}
    (h : dfsSync s (rbound s k) true k = some (.ok (.inr p, tr))) :
    aresolve s k = some (.ok (.res p.key (p.resolved ++ (completePend p.pending).1),
      tr ++ (completePend p.pending).2 ++ [p.key])) := by
  unfold aresolve
  rw [h]

theorem resolve_of_err {s : Storage} {k : Key} {e : Err}
    (h : dfsSync s (rbound s k) true k = some (.error e)) :
    resolve s k = some (.error e) := by
  unfold resolve
  rw [h]

theorem aresolve_of_err {s : Storage} {k : Key} {e : Err}
    (h : dfsSync s (rbound s k) true k = some (.error e)) :
    aresolve s k = some (.error e) := by
  unfold aresolve
  rw [h]

/-- Over an acyclic fully-registered region the top-level phase-1 call at
the canonical fuel succeeds with a partial node. -/
theorem dfsSync_top_ok {s : Storage} {k : Key} (hac : AcyclicFrom s k)
    (hcp : ClosurePresent s k) :
    ∃ p tr, dfsSync s (rbound s k) true k = some (.ok (.inr p, tr)) := by
  obtain ⟨out, hout, herr⟩ :=
    (dfsSync_total s (rbound s k)).1 true k hac (reachSet_ncard_lt_rbound s k)
  cases out with
  | error e =>
    obtain ⟨m, _, hn, hr⟩ := herr e rfl
    have := hcp m hr
    rw [hn] at this
    simp at this
  | ok rtr =>
    obtain ⟨r, tr⟩ := rtr
    have hout' : dfsSync s ((keyUniv s k).card + 1) true k =
        some (.ok (r, tr)) := hout
    obtain ⟨p, rfl⟩ := dfsSync_top_partial hout'
    exact ⟨p, tr, hout⟩

/-- Over an acyclic region with an unregistered reachable key the top-level
phase-1 call raises `UnknownDependency` naming an unregistered reachable
key. -/
theorem dfsSync_top_err {s : Storage} {k : Key} (hac : AcyclicFrom s k)
    (hmiss : ∃ m, Reach s k m ∧ find? s m = none) :
    ∃ m, find? s m = none ∧ Reach s k m ∧
      dfsSync s (rbound s k) true k =
        some (.error (.unknownDependency m)) := by
  obtain ⟨out, hout, herr⟩ :=
    (dfsSync_total s (rbound s k)).1 true k hac (reachSet_ncard_lt_rbound s k)
  cases out with
  | ok r =>
    obtain ⟨m, hr, hn⟩ := hmiss
    have := (dfsSync_ok_closure s (rbound s k)).1 _ _ _ hout m hr
    rw [hn] at this
    simp at this
  | error e =>
    obtain ⟨m, he, hn, hr⟩ := herr e rfl
    subst he
    exact ⟨m, hn, hr, hout⟩

/-! ## Discharge helpers for concrete storages -/

/-- Induction along reachability: any property holding at the root and
preserved by edges holds everywhere reachable. -/
theorem reach_invariant {s : Storage} {k : Key} (P : Key → Prop) (hk : P k)
    (hstep : ∀ a b, P a → EdgeP s a b → P b) : ∀ m, Reach s k m → P m := by
  intro m hm
  induction hm with
  | refl => exact hk
  | tail _ hbc ih => exact hstep _ _ ih hbc

/-- A storage whose every kwarg target is registered has fully-registered
closures from any registered key. -/
theorem closurePresent_of_targets {s : Storage} {k : Key}
    (hk : (find? s k).isSome)
    (ht : ∀ t ∈ targetKeys s, (find? s t).isSome) : ClosurePresent s k := by
  apply reach_invariant (fun m => (find? s m).isSome) hk
  intro a b ha hab
  obtain ⟨d, hfa, hbm⟩ := edge_src_find hab
  obtain ⟨l, hl, hdl⟩ := find?_some_mem hfa
  apply ht
  simp only [targetKeys, List.mem_flatMap]
  exact ⟨l, hl, ⟨_, hdl, hbm⟩⟩

/-! ## The transitive async flag of `tinydi` nodes -/

/-- Structural induction over registration trees. -/
theorem tdep_strong_ind (P : TDep → Prop)
    (h : ∀ k own kws, (∀ n d, (n, d) ∈ kws → P d) → P (.mk k own kws)) :
    ∀ d, P d
  | .mk k own kws => h k own kws (fun n d hmem => tdep_strong_ind P h d)
termination_by d => sizeOf d
decreasing_by
  have h1 := List.sizeOf_lt_of_mem hmem
  have h2 : sizeOf d < sizeOf (n, d) := by simp
  simp only [TDep.mk.sizeOf_spec]
  omega

theorem isAsync_mk (k : Key) (own : Bool) (kws : List (String × TDep)) :
    TDep.isAsync (.mk k own kws) = (own || anyAsync kws) := rfl

theorem anyAsync_iff : ∀ kws : List (String × TDep),
    anyAsync kws = true ↔ ∃ n d, (n, d) ∈ kws ∧ TDep.isAsync d = true := by
  intro kws
  induction kws with
  | nil => simp [anyAsync]
  | cons p rest ih =>
    obtain ⟨n0, d0⟩ := p
    rw [show anyAsync ((n0, d0) :: rest) = (d0.isAsync || anyAsync rest) from rfl]
    constructor
    · intro h
      have h' : TDep.isAsync d0 = true ∨ anyAsync rest = true := by simpa using h
      rcases h' with h | h
      · exact ⟨n0, d0, List.mem_cons_self .., h⟩
      · obtain ⟨n, d, hm, ha⟩ := ih.mp h
        exact ⟨n, d, List.mem_cons_of_mem _ hm, ha⟩
    · rintro ⟨n, d, hm, ha⟩
      rcases List.mem_cons.mp hm with heq | hm'
      · injection heq with h1 h2
        subst h2
        simp [ha]
      · simp [ih.mpr ⟨n, d, hm', ha⟩]

/-- Source `Dependency.is_async` is true exactly when some node of the
registration tree wraps an asynchronous factory: asynchronicity propagates
upward through the snapshot. -/
theorem tdep_isAsync_iff : ∀ d : TDep,
    (TDep.isAsync d = true ↔ ∃ n, Subnode n d ∧ TDep.ownAsync n = true) := by
  apply tdep_strong_ind
  intro k own kws ih
  rw [isAsync_mk]
  constructor
  · intro h
    have h' : own = true ∨ anyAsync kws = true := by simpa using h
    rcases h' with h | h
    · exact ⟨.mk k own kws, Subnode.refl _, h⟩
    · obtain ⟨n0, d0, hmem, ha⟩ := (anyAsync_iff kws).mp h
      obtain ⟨sub, hsubn, howna⟩ := (ih n0 d0 hmem).mp ha
      exact ⟨sub, Subnode.step hmem hsubn, howna⟩
  · rintro ⟨sub, hsub, hown⟩
    cases hsub with
    | refl => simp [show own = true from hown]
    | step hmem hsub2 =>
      have hd0 := (ih _ _ hmem).mpr ⟨sub, hsub2, hown⟩
      simp [(anyAsync_iff kws).mpr ⟨_, _, hmem, hd0⟩]

/-- Acyclicity from a ranking function that strictly decreases along edges
out of the reachable region. -/
theorem acyclicFrom_of_rank {s : Storage} {k : Key} (rank : Key → Nat)
    (hr : ∀ a b, Reach s k a → EdgeP s a b → rank b < rank a) :
    AcyclicFrom s k := by
  intro c hc htg
  have hdesc : ∀ x y, Relation.TransGen (EdgeP s) x y → Reach s k x →
      rank y < rank x := by
    intro x y htg2 hrx
    induction htg2 with
    | single h => exact hr _ _ hrx h
    | tail hab hbc ih =>
      exact lt_trans (hr _ _ (hrx.trans hab.to_reflTransGen) hbc) ih
  exact absurd (hdesc c c htg hc) (lt_irrefl _)

/-! ## Example fixtures -/

/-! ## Claims -/

/-- C1: for every storage state and candidate registration whose insertion
would create a cycle (a nonempty edge path from the candidate key back to
itself in the hypothetical storage that already contains the candidate
mapping, all of whose reachable keys are registered), `register` fails with
the cycle error and the observable storage after the failed register equals
the storage before it; the check runs on the hypothetical child storage,
never the real one. -/
theorem register_cycle_rejected_atomic (s : Storage) (k : Key) (v : Dep)
    (hcp : ClosurePresent (newChild s [(k, v)]) k)
    (hcyc : Relation.TransGen (EdgeP (newChild s [(k, v)])) k k) :
    hasCycle (newChild s [(k, v)]) k = .ok true ∧
    setItem s k v = .error .cycleError ∧
    setItemState s k v = s := by
  have hh : hasCycle (newChild s [(k, v)]) k = .ok true := by
    obtain ⟨b, hb⟩ := hasCycle_not_error hcp
    cases b with
    | true => exact hb
    | false =>
      obtain ⟨hac, _⟩ := hasCycle_false_complete hb
      exact absurd hcyc (hac k Relation.ReflTransGen.refl)
  refine ⟨hh, ?_, ?_⟩
  · unfold setItem
    rw [hh]
  · unfold setItemState setItem
    rw [hh]

/-- Witness for C1 at the spec's `X`/`Y` example: registering `0 → 1` when
`1 → 0` is stored is rejected atomically. -/
theorem register_cycle_rejected_atomic_witness :
    hasCycle (newChild regStore [(0, regCand)]) 0 = .ok true ∧
    setItem regStore 0 regCand = .error .cycleError ∧
    setItemState regStore 0 regCand = regStore := by
  apply register_cycle_rejected_atomic
  · exact closurePresent_of_targets (by decide) (by decide)
  · have e01 : EdgeP (newChild regStore [(0, regCand)]) 0 1 := by
      unfold EdgeP
      decide
    have e10 : EdgeP (newChild regStore [(0, regCand)]) 1 0 := by
      unfold EdgeP
      decide
    exact Relation.TransGen.head e01 (Relation.TransGen.single e10)

/-- C3: on a fully-registered closure, the three-coloring detector reports
`True` exactly when a cycle is reachable from the candidate key, and
`False` exactly when none is. -/
theorem has_cycle_iff_reachable_cycle (s : Storage) (k : Key)
    (hcp : ClosurePresent s k) :
    (hasCycle s k = .ok true ↔ HasCycleFrom s k) ∧
    (hasCycle s k = .ok false ↔ ¬ HasCycleFrom s k) := by
  obtain ⟨b, hb⟩ := hasCycle_not_error hcp
  cases b with
  | true =>
    have hcf := hasCycle_true_sound hb
    rw [hb]
    exact ⟨by simp [hcf], ⟨by intro h; simp at h, fun h => absurd hcf h⟩⟩
  | false =>
    obtain ⟨hac, _⟩ := hasCycle_false_complete hb
    have hncf : ¬ HasCycleFrom s k := by
      rintro ⟨c, hr, htg⟩
      exact hac c hr htg
    rw [hb]
    exact ⟨⟨by intro h; simp at h, fun h => absurd h hncf⟩, by simp [hncf]⟩

/-- Witness for C3 on the two-key cycle `0 → 1 → 0`. -/
theorem has_cycle_iff_reachable_cycle_witness :
    (hasCycle (newChild regStore [(0, regCand)]) 0 = .ok true ↔
      HasCycleFrom (newChild regStore [(0, regCand)]) 0) ∧
    (hasCycle (newChild regStore [(0, regCand)]) 0 = .ok false ↔
      ¬ HasCycleFrom (newChild regStore [(0, regCand)]) 0) :=
  has_cycle_iff_reachable_cycle (newChild regStore [(0, regCand)]) 0
    (closurePresent_of_targets (by decide) (by decide))

/-- C5: over an acyclic fully-registered dependency graph, both `resolve`
and `aresolve` terminate (the fuelled walks do not run out) and return a
value. -/
theorem acyclic_resolution_terminates (s : Storage) (k : Key)
    (hac : AcyclicFrom s k) (hcp : ClosurePresent s k) :
    (∃ v tr, resolve s k = some (.ok (v, tr))) ∧
    (∃ v tr, aresolve s k = some (.ok (v, tr))) := by
  obtain ⟨p, tr, h⟩ := dfsSync_top_ok hac hcp
  exact ⟨⟨_, _, resolve_of_top h⟩, ⟨_, _, aresolve_of_top h⟩⟩

/-- Witness for C5 on the example chain, resolving its deepest key. -/
theorem acyclic_resolution_terminates_witness :
    (∃ v tr, resolve chainStorage 3 = some (.ok (v, tr))) ∧
    (∃ v tr, aresolve chainStorage 3 = some (.ok (v, tr))) :=
  acyclic_resolution_terminates chainStorage 3
    (hasCycle_false_complete (show hasCycle chainStorage 3 = .ok false from rfl)).1
    (hasCycle_false_complete (show hasCycle chainStorage 3 = .ok false from rfl)).2

/-- C7: a singleton-like policy invoked twice in the same scope hands back
the identical object and runs the wrapped factory exactly once; a
factory-kind policy re-invokes on every call, yielding two independently
created objects. -/
theorem scope_policy_invocation_counts (k : Key) (ctr : Nat)
    (cached0 : Option Value) :
    ((scopeCall .singleton k none ctr).value =
        (scopeCall .singleton k (scopeCall .singleton k none ctr).cached
          (scopeCall .singleton k none ctr).ctr).value ∧
      (scopeCall .singleton k none ctr).invocations +
        (scopeCall .singleton k (scopeCall .singleton k none ctr).cached
          (scopeCall .singleton k none ctr).ctr).invocations = 1) ∧
    ((scopeCall .factory k cached0 ctr).invocations = 1 ∧
      (scopeCall .factory k (scopeCall .factory k cached0 ctr).cached
        (scopeCall .factory k cached0 ctr).ctr).invocations = 1 ∧
      (scopeCall .factory k cached0 ctr).value ≠
        (scopeCall .factory k (scopeCall .factory k cached0 ctr).cached
          (scopeCall .factory k cached0 ctr).ctr).value) := by
  refine ⟨⟨rfl, rfl⟩, rfl, rfl, ?_⟩
  intro h
  have h' : Value.inst k ctr = Value.inst k (ctr + 1) := h
  injection h' with h1 h2
  omega

/-- C9: pushing a scope layer, performing any registrations inside it, and
popping the layer restores exactly the prior storage — ancestor layers are
never mutated, and `contains` / `get` behave identically afterwards. -/
theorem scope_roundtrip_restores_storage (s : TStorage)
    (regs : List (Key × Bool × List (String × Key))) :
    (tenterScope s).tail = s ∧
    texitScope (applyTRegs (tenterScope s) regs) = s ∧
    (∀ k, tfind? (texitScope (applyTRegs (tenterScope s) regs)) k =
      tfind? s k) ∧
    (∀ k, tcontains (texitScope (applyTRegs (tenterScope s) regs)) k =
      tcontains s k) := by
  have htail : ∀ (rs : List (Key × Bool × List (String × Key)))
      (l : TLayer) (t : TStorage), ∃ l', applyTRegs (l :: t) rs = l' :: t := by
    intro rs
    induction rs with
    | nil => exact fun l t => ⟨l, rfl⟩
    | cons r rest ih =>
      intro l t
      obtain ⟨k, own, anns⟩ := r
      have hstep : ∃ l1, tdiSetItemState (l :: t) k own anns = l1 :: t := by
        unfold tdiSetItemState tdiSetItem
        cases hc : collectFactories (l :: t) anns with
        | error e => exact ⟨l, rfl⟩
        | ok kws => exact ⟨(k, TDep.mk k own kws) :: l, rfl⟩
      obtain ⟨l1, hl1⟩ := hstep
      rw [show applyTRegs (l :: t) ((k, own, anns) :: rest) =
        applyTRegs (tdiSetItemState (l :: t) k own anns) rest from rfl, hl1]
      exact ih l1 t
  obtain ⟨l', hl'⟩ := htail regs [] s
  have hexit : texitScope (applyTRegs (tenterScope s) regs) = s := by
    rw [show tenterScope s = [] :: s from rfl, hl']
    rfl
  exact ⟨rfl, hexit, fun k => by rw [hexit], fun k => by rw [hexit]⟩

/-- C4: a registered key whose snapshotted dependency closure contains an
asynchronous factory is refused by the synchronous entry point with the
invalid-operation error, without invoking any factory, while the
asynchronous entry point on the same key succeeds and returns the value. -/
theorem sync_access_on_async_closure (ts : TStorage) (k : Key) (d : TDep)
    (hfk : tfind? ts k = some d)
    (hasync : ∃ n, Subnode n d ∧ TDep.ownAsync n = true) :
    tdiGet ts k = (.error .invalidAsyncAccess, []) ∧
    tdiAget ts k = (.ok d.aeval, d.atrace) := by
  have h := (tdep_isAsync_iff d).mpr hasync
  unfold tdiGet tdiAget
  rw [hfk]
  constructor
  · show (if TDep.isAsync d = true then (Except.error Err.invalidAsyncAccess, ([] : List Key))
      else (Except.ok d.aeval, d.atrace)) = _
    rw [if_pos h]
  · show (if TDep.isAsync d = true then (Except.ok d.aeval, d.atrace)
      else (Except.ok d.aeval, d.atrace)) = _
    rw [if_pos h]

/-- Witness for C4: key 3 wraps a synchronous factory over an asynchronous
sub-dependency. -/
theorem sync_access_on_async_closure_witness :
    tdiGet tStore 3 = (.error .invalidAsyncAccess, []) ∧
    tdiAget tStore 3 = (.ok (TDep.aeval syncTop), TDep.atrace syncTop) :=
  sync_access_on_async_closure tStore 3 syncTop rfl
    ⟨asyncLeaf, Subnode.step (List.mem_cons_self ..) (Subnode.refl _), rfl⟩

/-- C6: an absent key makes `lookup` fail with `UnknownDependency` carrying
exactly that key; layer search is innermost-to-outermost; a resolution walk
over a region with an unregistered reachable key aborts with
`UnknownDependency` naming an unregistered reachable key (exactly the
missing key when it is unique); the `tinydi` `_get_factory` behaves the same
way. -/
theorem unknown_dependency_errors :
    (∀ (s : Storage) (m : Key), find? s m = none →
      lookup s m = .error (.unknownDependency m)) ∧
    (∀ (l : Layer) (rest : Storage) (k : Key) (d : Dep),
      alookup l k = some d → lookup (l :: rest) k = .ok d) ∧
    (∀ (l : Layer) (rest : Storage) (k : Key),
      alookup l k = none → lookup (l :: rest) k = lookup rest k) ∧
    (∀ (s : Storage) (k : Key), AcyclicFrom s k →
      (∃ m, Reach s k m ∧ find? s m = none) →
      ∃ m, find? s m = none ∧ Reach s k m ∧
        resolve s k = some (.error (.unknownDependency m)) ∧
        aresolve s k = some (.error (.unknownDependency m))) ∧
    (∀ (s : Storage) (k m0 : Key), AcyclicFrom s k →
      Reach s k m0 → find? s m0 = none →
      (∀ m', Reach s k m' → find? s m' = none → m' = m0) →
      resolve s k = some (.error (.unknownDependency m0)) ∧
      aresolve s k = some (.error (.unknownDependency m0))) ∧
    (∀ (ts : TStorage) (k : Key), tfind? ts k = none →
      tdiGet ts k = (.error (.unknownDependency k), [])) := by
  have hwalk : ∀ (s : Storage) (k : Key), AcyclicFrom s k →
      (∃ m, Reach s k m ∧ find? s m = none) →
      ∃ m, find? s m = none ∧ Reach s k m ∧
        resolve s k = some (.error (.unknownDependency m)) ∧
        aresolve s k = some (.error (.unknownDependency m)) := by
    intro s k hac hmiss
    obtain ⟨m, hn, hr, hd⟩ := dfsSync_top_err hac hmiss
    exact ⟨m, hn, hr, resolve_of_err hd, aresolve_of_err hd⟩
  refine ⟨fun s m h => lookup_none h, ?_, ?_, hwalk, ?_, ?_⟩
  · intro l rest k d h
    have hf : find? (l :: rest) k = some d := by
      show (match alookup l k with
        | some d => some d
        | none => find? rest k) = some d
      rw [h]
    unfold lookup
    rw [hf]
  · intro l rest k h
    have hf : find? (l :: rest) k = find? rest k := by
      show (match alookup l k with
        | some d => some d
        | none => find? rest k) = find? rest k
      rw [h]
    unfold lookup
    rw [hf]
  · intro s k m0 hac hr0 hn0 huniq
    obtain ⟨m, hn, hr, hres, hares⟩ := hwalk s k hac ⟨m0, hr0, hn0⟩
    have := huniq m hr hn
    subst this
    exact ⟨hres, hares⟩
  · intro ts k h
    unfold tdiGet
    rw [h]

/-- Witness for C6: a hand-built storage with a dangling edge `4 → 7`
surfaces `UnknownDependency 7` both directly and through the walk. -/
theorem unknown_dependency_errors_witness :
    lookup ([] : Storage) 7 = .error (.unknownDependency 7) ∧
    resolve missStore 4 = some (.error (.unknownDependency 7)) ∧
    aresolve missStore 4 = some (.error (.unknownDependency 7)) := by
  have hac : AcyclicFrom missStore 4 := by
    apply acyclicFrom_of_rank (fun x => if x = 4 then 1 else 0)
    intro a b _ hab
    obtain ⟨d, hfa, hbm⟩ := edge_src_find hab
    by_cases h4 : a = 4
    · subst h4
      rw [show find? missStore 4 = some ⟨false, [⟨"a", 7, []⟩]⟩ from rfl] at hfa
      injection hfa with hfa
      subst hfa
      simp at hbm
      subst hbm
      simp
    · exfalso
      have hnone : find? missStore a = none := by
        simp [missStore, find?, alookup, h4]
      rw [hnone] at hfa
      cases hfa
  have huniq : ∀ m', Reach missStore 4 m' → find? missStore m' = none →
      m' = 7 := by
    intro m' hr' hn'
    have hm : m' = 4 ∨ m' = 7 := by
      refine reach_invariant (fun x => x = 4 ∨ x = 7) (Or.inl rfl) ?_ m' hr'
      intro a b ha hab
      obtain ⟨d, hfa, hbm⟩ := edge_src_find hab
      rcases ha with ha | ha
      · subst ha
        rw [show find? missStore 4 = some ⟨false, [⟨"a", 7, []⟩]⟩ from rfl] at hfa
        injection hfa with hfa
        subst hfa
        simp at hbm
        exact Or.inr hbm
      · subst ha
        rw [show find? missStore 7 = none from rfl] at hfa
        cases hfa
    rcases hm with hm | hm
    · rw [hm] at hn'
      cases hn'
    · exact hm
  have hexact := unknown_dependency_errors.2.2.2.2.1 missStore 4 7 hac
    (Relation.ReflTransGen.single (show EdgeP missStore 4 7 by unfold EdgeP; decide))
    rfl huniq
  exact ⟨unknown_dependency_errors.1 [] 7 rfl, hexact.1, hexact.2⟩

/-- C2: during the phase-1 descent at a visited node (its kwargs loop
having produced `res`, `pend`, and the trace `tr`), the node's factory is
invoked immediately — collapsing the subtree into the value built from the
resolved kwargs and appending the invocation to the trace — if and only if
the visit is not the top-level call, the node's own factory is synchronous,
and no kwarg produced a pending entry; when the factory is asynchronous or
the node is top-level, the partially-resolved node is returned as-is with no
invocation added. -/
theorem resolve_sync_collapse_iff (s : Storage) (fuel : Nat) (top : Bool)
    (k : Key) (d : Dep) (res : List (String × Value))
    (pend : List (Kwarg × Part)) (tr : List Key)
    (hfk : find? s k = some d)
    (hpk : processKwargs s fuel d.kwargs = some (.ok (res, pend, tr))) :
    ((∃ v tr', dfsSync s (fuel + 1) top k = some (.ok (.inl v, tr'))) ↔
      (top = false ∧ d.isAsync = false ∧ pend = [])) ∧
    ((d.isAsync = true ∨ top = true) →
      dfsSync s (fuel + 1) top k =
        some (.ok (.inr (.mk k d.isAsync res pend), tr))) ∧
    ((top = false ∧ d.isAsync = false ∧ pend = []) →
      dfsSync s (fuel + 1) top k =
        some (.ok (.inl (.res k res), tr ++ [k]))) := by
  rw [dfsSync_step_ok hfk hpk]
  by_cases hcond : (top || d.isAsync || !pend.isEmpty) = true
  · rw [if_pos hcond]
    refine ⟨⟨?_, ?_⟩, fun _ => rfl, ?_⟩
    · rintro ⟨v, tr', hv⟩
      exfalso
      simp at hv
    · rintro ⟨ht, ha, hp⟩
      subst ht
      subst hp
      rw [ha] at hcond
      simp at hcond
    · rintro ⟨ht, ha, hp⟩
      subst ht
      subst hp
      rw [ha] at hcond
      simp at hcond
  · rw [if_neg hcond]
    have hc : top = false ∧ d.isAsync = false ∧ pend = [] := by
      refine ⟨?_, ?_, ?_⟩
      · cases htop : top
        · rfl
        · exfalso
          apply hcond
          rw [htop]
          rfl
      · cases hasy : d.isAsync
        · rfl
        · exfalso
          apply hcond
          rw [hasy]
          simp
      · cases pend with
        | nil => rfl
        | cons q qs =>
          exfalso
          apply hcond
          simp
    refine ⟨⟨fun _ => hc, fun _ => ⟨_, _, rfl⟩⟩, ?_, fun _ => rfl⟩
    rintro (ha | ht)
    · rw [ha] at hcond
      exact absurd (by simp) hcond
    · rw [ht] at hcond
      exact absurd (by simp) hcond

/-- Witness for C2 at the synchronous inner node 1 of the example chain
(kwargs already processed with no pending entry): the factory collapses,
and would not have collapsed at top level. -/
theorem resolve_sync_collapse_iff_witness :
    ((∃ v tr', dfsSync chainStorage 2 false 1 = some (.ok (.inl v, tr'))) ↔
      (false = false ∧ Dep.isAsync ⟨false, [⟨"a", 0, []⟩]⟩ = false ∧
        ([] : List (Kwarg × Part)) = [])) ∧
    ((Dep.isAsync ⟨false, [⟨"a", 0, []⟩]⟩ = true ∨ false = true) →
      dfsSync chainStorage 2 false 1 =
        some (.ok (.inr (.mk 1 (Dep.isAsync ⟨false, [⟨"a", 0, []⟩]⟩)
          [("a", .res 0 [])] []), [0]))) ∧
    ((false = false ∧ Dep.isAsync ⟨false, [⟨"a", 0, []⟩]⟩ = false ∧
        ([] : List (Kwarg × Part)) = []) →
      dfsSync chainStorage 2 false 1 =
        some (.ok (.inl (.res 1 [("a", .res 0 [])]), [0] ++ [1]))) :=
  resolve_sync_collapse_iff chainStorage 1 false 1 ⟨false, [⟨"a", 0, []⟩]⟩
    [("a", .res 0 [])] [] [0] rfl rfl

/-- C8: kwargs are resolved (phase 1) and awaited (phase 2) in the order
declared on the factory, so sibling traces concatenate left-to-right; on the
spec's chain `A ← B ← C (async) ← D`, `resolve_async(D)` invokes the
factories in the order `A, B, C, D` and builds `D`'s value from `C`'s
awaited result. -/
theorem kwargs_resolved_in_declared_order :
    (∀ (s : Storage) (fuel : Nat) (kw : Kwarg) (rest : List Kwarg)
      (v : Value ⊕ Part) (tr1 : List Key) (res : List (String × Value))
      (pend : List (Kwarg × Part)) (tr2 : List Key),
      dfsSync s fuel false kw.func = some (.ok (v, tr1)) →
      processKwargs s fuel rest = some (.ok (res, pend, tr2)) →
      ∃ res' pend', processKwargs s fuel (kw :: rest) =
        some (.ok (res', pend', tr1 ++ tr2))) ∧
    (∀ (kw : Kwarg) (p : Part) (rest : List (Kwarg × Part)),
      (completePend ((kw, p) :: rest)).2 =
        (awaitPart p).2 ++ (completePend rest).2) ∧
    aresolve chainStorage 3 =
      some (.ok (.res 3 [("c", .res 2 [("b", .res 1 [("a", .res 0 [])])])],
        [0, 1, 2, 3])) := by
  refine ⟨?_, ?_, rfl⟩
  · intro s fuel kw rest v tr1 res pend tr2 hsub hacc
    rw [show processKwargs s fuel (kw :: rest) =
      stepKwarg kw (dfsSync s fuel false kw.func)
        (processKwargs s fuel rest) from rfl, hsub, hacc]
    cases v with
    | inl v0 => exact ⟨_, _, rfl⟩
    | inr p0 => exact ⟨_, _, rfl⟩
  · intro kw p rest
    rfl

/-- Witness for C8 instantiating the sibling-order conjunct on the example
chain (node 1 before an empty tail). -/
theorem kwargs_resolved_in_declared_order_witness :
    ∃ res' pend', processKwargs chainStorage 2 [⟨"b", 1, []⟩] =
      some (.ok (res', pend', [0, 1] ++ [])) :=
  kwargs_resolved_in_declared_order.1 chainStorage 2 ⟨"b", 1, []⟩ []
    (.inl (.res 1 [("a", .res 0 [])])) [0, 1] [] [] [] rfl rfl

/-- Counterexample to C10 as stated: this registration's closure references
the unregistered key 99, yet `register` raises the cycle error, not
`UnknownDependency`. -/
theorem register_missing_dep_counterexample :
    find? (newChild regStore [(0, missCand)]) 99 = none ∧
    Reach (newChild regStore [(0, missCand)]) 0 99 ∧
    setItem regStore 0 missCand = .error .cycleError ∧
    ∀ m, setItem regStore 0 missCand ≠ .error (.unknownDependency m) := by
  refine ⟨rfl, ?_, rfl, ?_⟩
  · exact Relation.ReflTransGen.single
      (show EdgeP (newChild regStore [(0, missCand)]) 0 99 by
        unfold EdgeP
        decide)
  · intro m h
    rw [show setItem regStore 0 missCand = .error .cycleError from rfl] at h
    injection h with h
    exact Err.noConfusion h

/-- C10 (amended): when the prospective graph reachable from the candidate
is acyclic and references an unregistered key, `register` raises
`UnknownDependency` naming an unregistered reachable key, and the candidate
is not inserted. -/
theorem register_missing_dep_unknown (s : Storage) (k : Key) (v : Dep)
    (hac : AcyclicFrom (newChild s [(k, v)]) k)
    (hmiss : ∃ m, Reach (newChild s [(k, v)]) k m ∧
      find? (newChild s [(k, v)]) m = none) :
    ∃ m, find? (newChild s [(k, v)]) m = none ∧
      Reach (newChild s [(k, v)]) k m ∧
      setItem s k v = .error (.unknownDependency m) ∧
      setItemState s k v = s := by
  cases hh : hasCycle (newChild s [(k, v)]) k with
  | ok b =>
    cases b with
    | true =>
      obtain ⟨c, hr, htg⟩ := hasCycle_true_sound hh
      exact absurd htg (hac c hr)
    | false =>
      obtain ⟨_, hcp⟩ := hasCycle_false_complete hh
      obtain ⟨m, hr, hn⟩ := hmiss
      have := hcp m hr
      rw [hn] at this
      simp at this
  | error e =>
    obtain ⟨m, he, hr, hn⟩ := hasCycle_error hh
    subst he
    refine ⟨m, hn, hr, ?_, ?_⟩
    · unfold setItem
      rw [hh]
    · unfold setItemState setItem
      rw [hh]

/-- Witness for the amended C10: registering `5 → 99` into an empty
container raises `UnknownDependency` and leaves storage unchanged. -/
theorem register_missing_dep_unknown_witness :
    ∃ m, find? (newChild leafStore [(5, missLeafCand)]) m = none ∧
      Reach (newChild leafStore [(5, missLeafCand)]) 5 m ∧
      setItem leafStore 5 missLeafCand = .error (.unknownDependency m) ∧
      setItemState leafStore 5 missLeafCand = leafStore := by
  apply register_missing_dep_unknown
  · apply acyclicFrom_of_rank (fun x => if x = 5 then 1 else 0)
    intro a b _ hab
    obtain ⟨d, hfa, hbm⟩ := edge_src_find hab
    by_cases h5 : a = 5
    · subst h5
      rw [show find? (newChild leafStore [(5, missLeafCand)]) 5 =
        some missLeafCand from rfl] at hfa
      injection hfa with hfa
      subst hfa
      rw [show Dep.kwargs missLeafCand = [⟨"m", 99, []⟩] from rfl] at hbm
      simp at hbm
      subst hbm
      decide
    · exfalso
      have hnone : find? (newChild leafStore [(5, missLeafCand)]) a = none := by
        simp [newChild, leafStore, missLeafCand, find?, alookup, h5]
      rw [hnone] at hfa
      cases hfa
  · exact ⟨99, Relation.ReflTransGen.single
      (show EdgeP (newChild leafStore [(5, missLeafCand)]) 5 99 by
        unfold EdgeP
        decide), rfl⟩

end TinyDi
